import Mathlib

/-!
# Verification of the Portkey ↔ Strands format adapter

Shallow embedding of `src/strands_portkey` (`_errors.py`, `_formatting.py`,
`model.py`) and proofs of the specification's claims about it.

Python strings are modelled as Lean `String`/`List Char`; Python `None` as
`Option.none`; Python truthiness of strings/lists/dicts is made explicit at
each use site.  The stdlib `json.dumps`/`json.loads` pair used by
`_formatting.py` is modelled by `Json.dumps`/`Json.loads` below
(floats are omitted from the JSON model; `dumps` writes non-ASCII characters
literally, which parses to the same value as the `ensure_ascii` form).
-/

namespace StrandsPortkey

/-- JSON values as produced/consumed by `json.dumps`/`json.loads`
(numbers restricted to integers; object keys are strings). -/
inductive Json where
  | null : Json
  | bool (b : Bool) : Json
  | int (n : Int) : Json
  | str (s : String) : Json
  | arr (xs : List Json) : Json
  | obj (kvs : List (String × Json)) : Json

/-- Hexadecimal digit character (lowercase, as Python's `json` emits). -/
def hexDigitChar (n : Nat) : Char :=
  if n < 10 then Char.ofNat (48 + n) else Char.ofNat (87 + n)

/-- Four-digit hexadecimal rendering of a code point below 0x10000. -/
def hex4 (n : Nat) : List Char :=
  [hexDigitChar (n / 4096 % 16), hexDigitChar (n / 256 % 16),
   hexDigitChar (n / 16 % 16), hexDigitChar (n % 16)]

/-- Escape one character the way `json.dumps` does inside string literals. -/
def escChar (c : Char) : List Char :=
  if c = '"' then ['\\', '"']
  else if c = '\\' then ['\\', '\\']
  else if c = Char.ofNat 10 then ['\\', 'n']
  else if c = Char.ofNat 9 then ['\\', 't']
  else if c = Char.ofNat 13 then ['\\', 'r']
  else if c = Char.ofNat 8 then ['\\', 'b']
  else if c = Char.ofNat 12 then ['\\', 'f']
  else if c.toNat < 32 then '\\' :: 'u' :: hex4 c.toNat
  else [c]

/-- Escape a whole string body. -/
def escChars : List Char → List Char
  | [] => []
  | c :: cs => escChar c ++ escChars cs

/-- Decimal digit character. -/
def digitChar (n : Nat) : Char := Char.ofNat (48 + n)

/-- Fueled digit renderer (fuel `> n` always suffices). -/
def natCharsAux : Nat → Nat → List Char
  | 0, _ => []
  | fuel + 1, n =>
    if n < 10 then [digitChar n] else natCharsAux fuel (n / 10) ++ [digitChar (n % 10)]

/-- Decimal rendering of a natural number, as Python's `str`. -/
def natChars (n : Nat) : List Char := natCharsAux (n + 1) n

/-- Decimal rendering of an integer, as Python's `str`. -/
def intChars (n : Int) : List Char :=
  if n < 0 then '-' :: natChars n.natAbs else natChars n.natAbs

mutual

/-- Serialization of a JSON value, modelling `json.dumps` with its default
separators (`", "` and `": "`). -/
def dumpsChars : Json → List Char
  | .null => ['n', 'u', 'l', 'l']
  | .bool b => if b then ['t', 'r', 'u', 'e'] else ['f', 'a', 'l', 's', 'e']
  | .int n => intChars n
  | .str s => '"' :: (escChars s.data ++ ['"'])
  | .arr [] => ['[', ']']
  | .arr (x :: xs) => '[' :: (dumpsChars x ++ dumpsArrTail xs ++ [']'])
  | .obj [] => ['\x7b', '\x7d']
  | .obj (kv :: kvs) => '\x7b' :: (dumpsMember kv ++ dumpsObjTail kvs ++ ['\x7d'])

/-- One `"key": value` member. -/
def dumpsMember : String × Json → List Char
  | (k, v) => '"' :: (escChars k.data ++ ['"', ':', ' ']) ++ dumpsChars v

/-- `", elem"` repetitions after the first array element. -/
def dumpsArrTail : List Json → List Char
  | [] => []
  | x :: xs => ',' :: ' ' :: (dumpsChars x ++ dumpsArrTail xs)

/-- `", member"` repetitions after the first object member. -/
def dumpsObjTail : List (String × Json) → List Char
  | [] => []
  | kv :: kvs => ',' :: ' ' :: (dumpsMember kv ++ dumpsObjTail kvs)

end

/-- `json.dumps` on the model. -/
def Json.dumps (v : Json) : String := String.mk (dumpsChars v)

/-- JSON whitespace. -/
def isWsChar (c : Char) : Bool :=
  c = ' ' || c = Char.ofNat 10 || c = Char.ofNat 9 || c = Char.ofNat 13

/-- Skip leading whitespace. -/
def skipWs : List Char → List Char
  | [] => []
  | c :: cs => if isWsChar c then skipWs cs else c :: cs

/-- ASCII decimal digit test. -/
def isDigitAscii (c : Char) : Bool := 48 ≤ c.toNat && c.toNat ≤ 57

/-- Value of an ASCII decimal digit. -/
def digitVal (c : Char) : Nat := c.toNat - 48

/-- Consume a maximal run of decimal digits, accumulating their value. -/
def goDigits : Nat → List Char → Nat × List Char
  | acc, [] => (acc, [])
  | acc, c :: cs =>
    if isDigitAscii c then goDigits (acc * 10 + digitVal c) cs else (acc, c :: cs)

/-- Value of a hexadecimal digit character, if it is one. -/
def hexVal (c : Char) : Option Nat :=
  if 48 ≤ c.toNat ∧ c.toNat ≤ 57 then some (c.toNat - 48)
  else if 97 ≤ c.toNat ∧ c.toNat ≤ 102 then some (c.toNat - 87)
  else if 65 ≤ c.toNat ∧ c.toNat ≤ 70 then some (c.toNat - 55)
  else none

/-- Match an exact character sequence, returning the remainder. -/
def dropExact : List Char → List Char → Option (List Char)
  | [], cs => some cs
  | _ :: _, [] => none
  | p :: ps, c :: cs => if c = p then dropExact ps cs else none

/-- Parse the body of a JSON string literal (after the opening quote),
up to and including the closing quote; returns the unescaped characters. -/
def parseStringBody : List Char → Option (List Char × List Char)
  | [] => none
  | '"' :: cs => some ([], cs)
  | '\\' :: 'u' :: h1 :: h2 :: h3 :: h4 :: cs =>
    match hexVal h1, hexVal h2, hexVal h3, hexVal h4 with
    | some a, some b, some c2, some d =>
      (parseStringBody cs).map
        (fun p => (Char.ofNat (4096 * a + 256 * b + 16 * c2 + d) :: p.1, p.2))
    | _, _, _, _ => none
  | '\\' :: e :: cs =>
    if e = '"' then (parseStringBody cs).map (fun p => ('"' :: p.1, p.2))
    else if e = '\\' then (parseStringBody cs).map (fun p => ('\\' :: p.1, p.2))
    else if e = 'n' then (parseStringBody cs).map (fun p => (Char.ofNat 10 :: p.1, p.2))
    else if e = 't' then (parseStringBody cs).map (fun p => (Char.ofNat 9 :: p.1, p.2))
    else if e = 'r' then (parseStringBody cs).map (fun p => (Char.ofNat 13 :: p.1, p.2))
    else if e = 'b' then (parseStringBody cs).map (fun p => (Char.ofNat 8 :: p.1, p.2))
    else if e = 'f' then (parseStringBody cs).map (fun p => (Char.ofNat 12 :: p.1, p.2))
    else if e = '/' then (parseStringBody cs).map (fun p => ('/' :: p.1, p.2))
    else none
  | '\\' :: [] => none
  | c :: cs => (parseStringBody cs).map (fun p => (c :: p.1, p.2))

mutual

/-- Fueled parser for one JSON value (model of `json.loads`'s grammar,
with integer numbers). -/
def parseVal : Nat → List Char → Option (Json × List Char)
  | 0, _ => none
  | f + 1, cs =>
    match skipWs cs with
    | [] => none
    | c :: rest =>
      if isDigitAscii c then
        let p := goDigits (digitVal c) rest
        some (.int (p.1 : Int), p.2)
      else if c = '-' then
        match rest with
        | [] => none
        | d :: rest2 =>
          if isDigitAscii d then
            let p := goDigits (digitVal d) rest2
            some (.int (-(p.1 : Int)), p.2)
          else none
      else if c = 'n' then (dropExact ['u', 'l', 'l'] rest).map (fun r => (.null, r))
      else if c = 't' then (dropExact ['r', 'u', 'e'] rest).map (fun r => (.bool true, r))
      else if c = 'f' then (dropExact ['a', 'l', 's', 'e'] rest).map (fun r => (.bool false, r))
      else if c = '"' then
        (parseStringBody rest).map (fun p => (.str (String.mk p.1), p.2))
      else if c = '[' then
        match skipWs rest with
        | [] => none
        | d :: rest2 =>
          if d = ']' then some (.arr [], rest2)
          else (parseItems f (d :: rest2)).map (fun p => (.arr p.1, p.2))
      else if c = '\x7b' then
        match skipWs rest with
        | [] => none
        | d :: rest2 =>
          if d = '\x7d' then some (.obj [], rest2)
          else (parseMembers f (d :: rest2)).map (fun p => (.obj p.1, p.2))
      else none

/-- Fueled parser for a nonempty comma-separated element list, up to and
including the closing bracket. -/
def parseItems : Nat → List Char → Option (List Json × List Char)
  | 0, _ => none
  | f + 1, cs =>
    match parseVal f cs with
    | none => none
    | some (v, rest) =>
      match skipWs rest with
      | [] => none
      | d :: rest2 =>
        if d = ',' then
          match parseItems f rest2 with
          | none => none
          | some (vs, rest3) => some (v :: vs, rest3)
        else if d = ']' then some ([v], rest2)
        else none

/-- Fueled parser for a nonempty comma-separated member list, up to and
including the closing brace. -/
def parseMembers : Nat → List Char → Option (List (String × Json) × List Char)
  | 0, _ => none
  | f + 1, cs =>
    match skipWs cs with
    | [] => none
    | c :: rest =>
      if c = '"' then
        match parseStringBody rest with
        | none => none
        | some (kcs, rest1) =>
          match skipWs rest1 with
          | [] => none
          | d :: rest2 =>
            if d = ':' then
              match parseVal f rest2 with
              | none => none
              | some (v, rest3) =>
                match skipWs rest3 with
                | [] => none
                | e :: rest4 =>
                  if e = ',' then
                    match parseMembers f rest4 with
                    | none => none
                    | some (kvs, rest5) => some ((String.mk kcs, v) :: kvs, rest5)
                  else if e = '\x7d' then some ([(String.mk kcs, v)], rest4)
                  else none
            else none
      else none

end

/-- `json.loads` on the model: parse a complete value, allowing trailing
whitespace only. -/
def Json.loads (s : String) : Option Json :=
  match parseVal (s.length + 1) s.data with
  | some (v, rest) => if skipWs rest = [] then some v else none
  | none => none

/-! ### Round-trip: `loads ∘ dumps = some` -/

theorem toNat_ofNat_valid (n : Nat) (h : n < 55296) : (Char.ofNat n).toNat = n := by
  simp [Char.ofNat, Nat.isValidChar, h, Char.ofNatAux, Char.toNat, UInt32.toNat]

theorem char_eq_of_toNat_eq {c d : Char} (h : c.toNat = d.toNat) : c = d :=
  Char.ext (UInt32.toNat.inj h)

theorem char_ne_of_toNat_ne {c d : Char} (h : c.toNat ≠ d.toNat) : c ≠ d :=
  fun he => h (by rw [he])

theorem ofNat_toNat_small (c : Char) (h : c.toNat < 55296) : Char.ofNat c.toNat = c :=
  char_eq_of_toNat_eq (toNat_ofNat_valid _ h)

theorem digitChar_toNat {m : Nat} (h : m < 10) : (digitChar m).toNat = 48 + m := by
  unfold digitChar
  exact toNat_ofNat_valid _ (by omega)

theorem isDigitAscii_digitChar {m : Nat} (h : m < 10) : isDigitAscii (digitChar m) = true := by
  unfold isDigitAscii
  rw [digitChar_toNat h]
  simp only [Bool.and_eq_true, decide_eq_true_eq]
  omega

theorem digitVal_digitChar {m : Nat} (h : m < 10) : digitVal (digitChar m) = m := by
  unfold digitVal
  rw [digitChar_toNat h]
  omega

theorem isWsChar_of_digit {c : Char} (h : isDigitAscii c = true) : isWsChar c = false := by
  unfold isDigitAscii at h
  simp only [Bool.and_eq_true, decide_eq_true_eq] at h
  have h32 : (' ' : Char).toNat = 32 := rfl
  have h10 : (Char.ofNat 10).toNat = 10 := toNat_ofNat_valid _ (by omega)
  have h9 : (Char.ofNat 9).toNat = 9 := toNat_ofNat_valid _ (by omega)
  have h13 : (Char.ofNat 13).toNat = 13 := toNat_ofNat_valid _ (by omega)
  unfold isWsChar
  simp only [Bool.or_eq_false_iff, decide_eq_false_iff_not]
  exact ⟨⟨⟨char_ne_of_toNat_ne (by omega), char_ne_of_toNat_ne (by omega)⟩,
    char_ne_of_toNat_ne (by omega)⟩, char_ne_of_toNat_ne (by omega)⟩

theorem skipWs_cons_not_ws {c : Char} (h : isWsChar c = false) (cs : List Char) :
    skipWs (c :: cs) = c :: cs := by
  simp [skipWs, h]

theorem natCharsAux_fuel : ∀ (f n : Nat), n < f → natCharsAux f n = natCharsAux (n + 1) n := by
  intro f
  induction f using Nat.strong_induction_on with
  | _ f ih =>
    intro n hn
    match f, hn with
    | f + 1, hn =>
      rw [natCharsAux, natCharsAux]
      by_cases h : n < 10
      · simp [h]
      · rw [if_neg h, if_neg h]
        have hd : n / 10 < n := Nat.div_lt_self (by omega) (by omega)
        rw [ih f (by omega) (n / 10) (by omega), ih n (by omega) (n / 10) (by omega)]

/-- Recurrence for `natChars`. -/
theorem natChars_eq (n : Nat) :
    natChars n = if n < 10 then [digitChar n]
      else natChars (n / 10) ++ [digitChar (n % 10)] := by
  by_cases h : n < 10
  · rw [natChars, natCharsAux, if_pos h, if_pos h]
  · rw [natChars, natCharsAux, if_neg h, if_neg h, natChars,
      natCharsAux_fuel n (n / 10) (Nat.div_lt_self (by omega) (by omega))]

/-- `natChars` produces a digit-headed, digits-only rendering. -/
theorem natChars_head (n : Nat) :
    ∃ c cs, natChars n = c :: cs ∧ isDigitAscii c = true := by
  induction n using Nat.strong_induction_on with
  | _ n ih =>
    rw [natChars_eq]
    by_cases h : n < 10
    · exact ⟨digitChar n, [], by simp [h], isDigitAscii_digitChar h⟩
    · obtain ⟨c, cs, hd, hdig⟩ := ih (n / 10) (Nat.div_lt_self (by omega) (by omega))
      exact ⟨c, cs ++ [digitChar (n % 10)], by simp [h, hd], hdig⟩

/-- Accumulator lemma: running the digit scanner over `natChars n` extends the
accumulator by `n` in base `10 ^ (number of digits)`. -/
theorem goDigits_natChars (n : Nat) : ∀ acc rest,
    goDigits acc (natChars n ++ rest) =
      goDigits (acc * 10 ^ (natChars n).length + n) rest := by
  induction n using Nat.strong_induction_on with
  | _ n ih =>
    intro acc rest
    by_cases h : n < 10
    · rw [natChars_eq, if_pos h]
      simp only [List.singleton_append, List.length_cons, List.length_nil]
      rw [goDigits, if_pos (isDigitAscii_digitChar h), digitVal_digitChar h]
      ring_nf
    · rw [natChars_eq, if_neg h]
      have h10 : n / 10 < n := Nat.div_lt_self (by omega) (by omega)
      rw [List.append_assoc, ih (n / 10) h10, List.singleton_append]
      rw [goDigits, if_pos (isDigitAscii_digitChar (by omega : n % 10 < 10)),
        digitVal_digitChar (by omega : n % 10 < 10)]
      rw [List.length_append, List.length_singleton]
      congr 1
      have := Nat.div_add_mod n 10
      rw [pow_succ]
      ring_nf
      omega

/-- A maximal digit run stops at a non-digit (or empty) remainder. -/
theorem goDigits_stop {rest : List Char} (h : rest.head?.all (fun c => !isDigitAscii c)) :
    ∀ acc, goDigits acc rest = (acc, rest) := by
  intro acc
  match rest, h with
  | [], _ => rfl
  | c :: cs, h =>
    simp only [List.head?_cons, Option.all_some, Bool.not_eq_true'] at h
    rw [goDigits, if_neg (by rw [h]; exact Bool.false_ne_true)]

theorem hexVal_hexDigitChar {m : Nat} (h : m < 16) : hexVal (hexDigitChar m) = some m := by
  unfold hexDigitChar hexVal
  by_cases h10 : m < 10
  · rw [if_pos h10, toNat_ofNat_valid _ (by omega), if_pos (by omega)]
    congr 1
    omega
  · rw [if_neg h10, toNat_ofNat_valid _ (by omega), if_neg (by omega), if_pos (by omega)]
    congr 1
    omega

theorem hex4_spec (n : Nat) (h : n < 65536) :
    ∃ a b c d, hex4 n = [hexDigitChar a, hexDigitChar b, hexDigitChar c, hexDigitChar d] ∧
      a < 16 ∧ b < 16 ∧ c < 16 ∧ d < 16 ∧ 4096 * a + 256 * b + 16 * c + d = n :=
  ⟨n / 4096 % 16, n / 256 % 16, n / 16 % 16, n % 16, rfl,
    Nat.mod_lt _ (by omega), Nat.mod_lt _ (by omega), Nat.mod_lt _ (by omega),
    Nat.mod_lt _ (by omega), by omega⟩

/-- Parsing one escaped character prepends that character. -/
theorem parseStringBody_escChar (c : Char) (tail : List Char) :
    parseStringBody (escChar c ++ tail) =
      (parseStringBody tail).map (fun p => (c :: p.1, p.2)) := by
  unfold escChar
  by_cases h1 : c = '"'
  · subst h1; simp [parseStringBody]
  rw [if_neg h1]
  by_cases h2 : c = '\\'
  · subst h2; simp [parseStringBody]
  rw [if_neg h2]
  by_cases h3 : c = Char.ofNat 10
  · subst h3; simp [parseStringBody]
  rw [if_neg h3]
  by_cases h4 : c = Char.ofNat 9
  · subst h4; simp [parseStringBody]
  rw [if_neg h4]
  by_cases h5 : c = Char.ofNat 13
  · subst h5; simp [parseStringBody]
  rw [if_neg h5]
  by_cases h6 : c = Char.ofNat 8
  · subst h6; simp [parseStringBody]
  rw [if_neg h6]
  by_cases h7 : c = Char.ofNat 12
  · subst h7; simp [parseStringBody]
  rw [if_neg h7]
  by_cases h8 : c.toNat < 32
  · rw [if_pos h8]
    obtain ⟨a, b, c2, d, hx, ha, hb, hc, hd, hsum⟩ := hex4_spec c.toNat (by omega)
    rw [hx]
    simp only [List.cons_append, List.nil_append]
    rw [parseStringBody]
    rw [hexVal_hexDigitChar ha, hexVal_hexDigitChar hb, hexVal_hexDigitChar hc,
      hexVal_hexDigitChar hd]
    simp only [hsum, ofNat_toNat_small c (by omega)]
  · rw [if_neg h8]
    simp only [List.singleton_append]
    rw [parseStringBody.eq_def]
    split <;> simp_all

/-- Parsing an escaped string body recovers the original characters. -/
theorem parseStringBody_escChars (s : List Char) (rest : List Char) :
    parseStringBody (escChars s ++ ('"' :: rest)) = some (s, rest) := by
  induction s with
  | nil =>
    rw [escChars, List.nil_append, parseStringBody]
  | cons c cs ih =>
    rw [escChars, List.append_assoc, parseStringBody_escChar, ih]
    rfl

/-- No leading decimal digit (safe continuation after a parsed number). -/
def digitHeadFree : List Char → Bool
  | [] => true
  | c :: _ => !isDigitAscii c

/-- The parser recovers `v` from `dumps v` with any digit-free continuation. -/
def ParsesVal (v : Json) : Prop :=
  ∀ f rest, (dumpsChars v).length + 1 ≤ f → digitHeadFree rest = true →
    parseVal f (dumpsChars v ++ rest) = some (v, rest)

/-- The item parser recovers a nonempty element list from its rendering. -/
def ParsesItems (x : Json) (xs : List Json) : Prop :=
  ∀ f rest, (dumpsChars x).length + (dumpsArrTail xs).length + 2 ≤ f →
    parseItems f (dumpsChars x ++ (dumpsArrTail xs ++ (']' :: rest))) = some (x :: xs, rest)

/-- The member parser recovers a nonempty member list from its rendering. -/
def ParsesMembers (kv : String × Json) (kvs : List (String × Json)) : Prop :=
  ∀ f rest, (dumpsMember kv).length + (dumpsObjTail kvs).length + 2 ≤ f →
    parseMembers f (dumpsMember kv ++ (dumpsObjTail kvs ++ ('\x7d' :: rest))) =
      some (kv :: kvs, rest)

theorem parseVal_congr_ws {cs₁ cs₂ : List Char} (h : skipWs cs₁ = skipWs cs₂) (f : Nat) :
    parseVal f cs₁ = parseVal f cs₂ := by
  cases f with
  | zero => rfl
  | succ f => rw [parseVal, parseVal, h]

theorem skipWs_sp (cs : List Char) : skipWs (' ' :: cs) = skipWs cs := by
  rw [skipWs, if_pos (by decide)]

theorem parseItems_sp (f : Nat) (cs : List Char) :
    parseItems f (' ' :: cs) = parseItems f cs := by
  cases f with
  | zero => rfl
  | succ f => rw [parseItems, parseItems, parseVal_congr_ws (skipWs_sp cs)]

theorem parseMembers_sp (f : Nat) (cs : List Char) :
    parseMembers f (' ' :: cs) = parseMembers f cs := by
  cases f with
  | zero => rfl
  | succ f => rw [parseMembers, parseMembers, skipWs_sp]

theorem parsesVal_null : ParsesVal .null := by
  intro f rest hf _
  obtain ⟨f', rfl⟩ : ∃ f', f = f' + 1 := ⟨f - 1, by omega⟩
  simp [dumpsChars, parseVal, skipWs, isWsChar, isDigitAscii, dropExact]

theorem parsesVal_bool (b : Bool) : ParsesVal (.bool b) := by
  intro f rest hf _
  obtain ⟨f', rfl⟩ : ∃ f', f = f' + 1 := ⟨f - 1, by omega⟩
  cases b <;>
    simp [dumpsChars, parseVal, skipWs, isWsChar, isDigitAscii, dropExact]

theorem goDigits_natChars_top {m : Nat} {c : Char} {cs rest : List Char}
    (hd : natChars m = c :: cs) (hrest : digitHeadFree rest = true) :
    goDigits (digitVal c) (cs ++ rest) = (m, rest) := by
  have hdig : isDigitAscii c = true := by
    obtain ⟨c', cs', hd', hdig'⟩ := natChars_head m
    rw [hd'] at hd
    cases hd
    exact hdig'
  have h0 := goDigits_natChars m 0 rest
  rw [hd] at h0
  simp only [List.cons_append, goDigits, if_pos hdig, Nat.zero_mul, Nat.zero_add,
    List.append_eq] at h0
  rw [h0]
  apply goDigits_stop
  match rest, hrest with
  | [], _ => rfl
  | c :: cs, hrest =>
    simp only [digitHeadFree, Bool.not_eq_true'] at hrest
    simp [hrest]

theorem parsesVal_int (n : Int) : ParsesVal (.int n) := by
  intro f rest hf hrest
  obtain ⟨f', rfl⟩ : ∃ f', f = f' + 1 := ⟨f - 1, by omega⟩
  have hm : isDigitAscii '-' = false := by decide
  by_cases hneg : n < 0
  · obtain ⟨c, cs, hd, hdig⟩ := natChars_head n.natAbs
    simp only [dumpsChars, intChars, if_pos hneg, hd, List.cons_append]
    rw [parseVal, skipWs_cons_not_ws (by decide)]
    simp [hm, hdig, goDigits_natChars_top hd hrest]
    rw [abs_of_neg hneg, neg_neg]
  · obtain ⟨c, cs, hd, hdig⟩ := natChars_head n.natAbs
    simp only [dumpsChars, intChars, if_neg hneg, hd, List.cons_append]
    rw [parseVal, skipWs_cons_not_ws (isWsChar_of_digit hdig)]
    simp [hdig, goDigits_natChars_top hd hrest]
    omega

theorem parsesVal_str (s : String) : ParsesVal (.str s) := by
  intro f rest hf _
  obtain ⟨f', rfl⟩ : ∃ f', f = f' + 1 := ⟨f - 1, by omega⟩
  have hq : isDigitAscii '"' = false := by decide
  rw [dumpsChars]
  simp only [List.cons_append, List.append_assoc, List.singleton_append]
  rw [parseVal, skipWs_cons_not_ws (by decide)]
  simp [hq, parseStringBody_escChars]

theorem digit_ne_rbracket {c : Char} (hdig : isDigitAscii c = true) : c ≠ ']' := by
  unfold isDigitAscii at hdig
  simp only [Bool.and_eq_true, decide_eq_true_eq] at hdig
  have h93 : (']' : Char).toNat = 93 := rfl
  exact char_ne_of_toNat_ne (by omega)

/-- Every rendered value starts with a non-whitespace character other than `]`. -/
theorem dumps_head (v : Json) :
    ∃ c cs, dumpsChars v = c :: cs ∧ isWsChar c = false ∧ c ≠ ']' := by
  cases v with
  | null => exact ⟨'n', _, rfl, by decide, by decide⟩
  | bool b => cases b with
    | true => exact ⟨'t', _, rfl, by decide, by decide⟩
    | false => exact ⟨'f', _, rfl, by decide, by decide⟩
  | int n =>
    rw [dumpsChars, intChars]
    by_cases hneg : n < 0
    · exact ⟨'-', _, by rw [if_pos hneg], by decide, by decide⟩
    · obtain ⟨c, cs, hd, hdig⟩ := natChars_head n.natAbs
      exact ⟨c, cs, by rw [if_neg hneg, hd], isWsChar_of_digit hdig,
        digit_ne_rbracket hdig⟩
  | str s => exact ⟨'"', _, rfl, by decide, by decide⟩
  | arr xs => cases xs with
    | nil => exact ⟨'[', _, rfl, by decide, by decide⟩
    | cons x xs => exact ⟨'[', _, rfl, by decide, by decide⟩
  | obj kvs => cases kvs with
    | nil => exact ⟨'\x7b', _, rfl, by decide, by decide⟩
    | cons kv kvs => exact ⟨'\x7b', _, rfl, by decide, by decide⟩

theorem digitHeadFree_cons {c : Char} (h : isDigitAscii c = false) (cs : List Char) :
    digitHeadFree (c :: cs) = true := by
  simp [digitHeadFree, h]

theorem parsesVal_arrNil : ParsesVal (.arr []) := by
  intro f rest hf _
  obtain ⟨f', rfl⟩ : ∃ f', f = f' + 1 := ⟨f - 1, by omega⟩
  simp [dumpsChars, parseVal, skipWs, isWsChar, isDigitAscii]

theorem parsesVal_objNil : ParsesVal (.obj []) := by
  intro f rest hf _
  obtain ⟨f', rfl⟩ : ∃ f', f = f' + 1 := ⟨f - 1, by omega⟩
  simp [dumpsChars, parseVal, skipWs, isWsChar, isDigitAscii]

theorem parsesVal_arrCons (x : Json) (xs : List Json) (hPI : ParsesItems x xs) :
    ParsesVal (.arr (x :: xs)) := by
  intro f rest hf _
  obtain ⟨f', rfl⟩ : ∃ f', f = f' + 1 := ⟨f - 1, by omega⟩
  have hfuel : (dumpsChars x).length + (dumpsArrTail xs).length + 2 ≤ f' := by
    rw [dumpsChars] at hf
    simp only [List.length_cons, List.length_append, List.length_singleton] at hf
    omega
  have hlb : isDigitAscii '[' = false := by decide
  rw [dumpsChars]
  simp only [List.cons_append, List.append_assoc, List.singleton_append]
  rw [parseVal, skipWs_cons_not_ws (by decide)]
  obtain ⟨c, cs, hd, hnws, hne⟩ := dumps_head x
  rw [hd]
  simp only [List.cons_append]
  rw [skipWs_cons_not_ws hnws]
  simp only [hlb, Bool.false_eq_true, if_false, if_neg (by decide : ¬('[' = '-')),
    if_neg (by decide : ¬('[' = 'n')), if_neg (by decide : ¬('[' = 't')),
    if_neg (by decide : ¬('[' = 'f')), if_neg (by decide : ¬('[' = '"')), if_pos rfl,
    if_true, if_neg hne, List.nil_append]
  rw [show c :: (cs ++ (dumpsArrTail xs ++ (']' :: rest))) =
    (c :: cs) ++ (dumpsArrTail xs ++ (']' :: rest)) from rfl, ← hd]
  rw [hPI f' rest hfuel]
  rfl

theorem parsesVal_objCons (kv : String × Json) (kvs : List (String × Json))
    (hPM : ParsesMembers kv kvs) : ParsesVal (.obj (kv :: kvs)) := by
  intro f rest hf _
  obtain ⟨f', rfl⟩ : ∃ f', f = f' + 1 := ⟨f - 1, by omega⟩
  have hfuel : (dumpsMember kv).length + (dumpsObjTail kvs).length + 2 ≤ f' := by
    rw [dumpsChars] at hf
    simp only [List.length_cons, List.length_append, List.length_singleton] at hf
    omega
  have hlb : isDigitAscii '\x7b' = false := by decide
  rw [dumpsChars]
  simp only [List.cons_append, List.append_assoc, List.singleton_append]
  rw [parseVal, skipWs_cons_not_ws (by decide)]
  obtain ⟨k, v⟩ := kv
  rw [dumpsMember]
  simp only [List.cons_append, List.append_assoc]
  rw [skipWs_cons_not_ws (by decide)]
  simp only [hlb, Bool.false_eq_true, if_false, if_neg (by decide : ¬('\x7b' = '-')),
    if_neg (by decide : ¬('\x7b' = 'n')), if_neg (by decide : ¬('\x7b' = 't')),
    if_neg (by decide : ¬('\x7b' = 'f')), if_neg (by decide : ¬('\x7b' = '"')),
    if_neg (by decide : ¬('\x7b' = '[')), if_pos rfl, if_true,
    if_neg (by decide : ¬('"' = '\x7d')), List.nil_append]
  have hshape : '"' :: (escChars k.data ++
      ('"' :: ':' :: ' ' :: (dumpsChars v ++ (dumpsObjTail kvs ++ ('\x7d' :: rest))))) =
      dumpsMember (k, v) ++ (dumpsObjTail kvs ++ ('\x7d' :: rest)) := by
    rw [dumpsMember]
    simp only [List.cons_append, List.append_assoc, List.nil_append]
  rw [hshape, hPM f' rest hfuel]
  rfl

theorem parsesItems_single (x : Json) (hx : ParsesVal x) : ParsesItems x [] := by
  intro f rest hfuel
  obtain ⟨f', rfl⟩ : ∃ f', f = f' + 1 := ⟨f - 1, by omega⟩
  rw [parseItems, dumpsArrTail]
  simp only [List.nil_append]
  rw [hx f' (']' :: rest) (by simp [dumpsArrTail] at hfuel; omega)
    (digitHeadFree_cons (by decide) rest)]
  simp [skipWs, isWsChar]

theorem parsesItems_cons (x y : Json) (ys : List Json) (hx : ParsesVal x)
    (ht : ParsesItems y ys) : ParsesItems x (y :: ys) := by
  intro f rest hfuel
  obtain ⟨f', rfl⟩ : ∃ f', f = f' + 1 := ⟨f - 1, by omega⟩
  have hlen : (dumpsArrTail (y :: ys)).length =
      2 + (dumpsChars y).length + (dumpsArrTail ys).length := by
    rw [dumpsArrTail]
    simp only [List.length_cons, List.length_append]
    omega
  rw [parseItems, dumpsArrTail]
  simp only [List.cons_append, List.append_assoc]
  rw [hx f' (',' :: ' ' :: (dumpsChars y ++ (dumpsArrTail ys ++ (']' :: rest))))
    (by omega) (digitHeadFree_cons (by decide) _)]
  simp only []
  rw [skipWs_cons_not_ws (by decide)]
  simp only [if_pos rfl, if_true]
  rw [parseItems_sp, ht f' rest (by omega)]

theorem parsesMembers_single (k : String) (v : Json) (hv : ParsesVal v) :
    ParsesMembers (k, v) [] := by
  intro f rest hfuel
  obtain ⟨f', rfl⟩ : ∃ f', f = f' + 1 := ⟨f - 1, by omega⟩
  have hlen : (dumpsMember (k, v)).length =
      4 + (escChars k.data).length + (dumpsChars v).length := by
    rw [dumpsMember]
    simp only [List.length_cons, List.length_append, List.length_nil]
    omega
  have hzero : (dumpsObjTail ([] : List (String × Json))).length = 0 := by
    rw [dumpsObjTail]
    rfl
  rw [parseMembers, dumpsMember, dumpsObjTail]
  simp only [List.cons_append, List.append_assoc, List.nil_append]
  rw [skipWs_cons_not_ws (by decide)]
  simp only [if_pos rfl, if_true]
  rw [parseStringBody_escChars]
  simp only []
  rw [skipWs_cons_not_ws (by decide)]
  simp only [if_pos rfl, if_true, List.nil_append]
  rw [parseVal_congr_ws (skipWs_sp _), hv f' ('\x7d' :: rest) (by omega)
    (digitHeadFree_cons (by decide) rest)]
  simp only []
  rw [skipWs_cons_not_ws (by decide)]
  simp

theorem parsesMembers_cons (k : String) (v : Json) (kv2 : String × Json)
    (kvs : List (String × Json)) (hv : ParsesVal v) (ht : ParsesMembers kv2 kvs) :
    ParsesMembers (k, v) (kv2 :: kvs) := by
  intro f rest hfuel
  obtain ⟨f', rfl⟩ : ∃ f', f = f' + 1 := ⟨f - 1, by omega⟩
  have hlen : (dumpsMember (k, v)).length =
      4 + (escChars k.data).length + (dumpsChars v).length := by
    rw [dumpsMember]
    simp only [List.length_cons, List.length_append, List.length_nil]
    omega
  have hlen2 : (dumpsObjTail (kv2 :: kvs)).length =
      2 + (dumpsMember kv2).length + (dumpsObjTail kvs).length := by
    rw [dumpsObjTail]
    simp only [List.length_cons, List.length_append]
    omega
  rw [parseMembers, dumpsMember, dumpsObjTail]
  simp only [List.cons_append, List.append_assoc]
  rw [skipWs_cons_not_ws (by decide)]
  simp only [if_pos rfl, if_true]
  rw [parseStringBody_escChars]
  simp only []
  rw [skipWs_cons_not_ws (by decide)]
  simp only [if_pos rfl, if_true, List.nil_append]
  rw [parseVal_congr_ws (skipWs_sp _),
    hv f' (',' :: ' ' :: (dumpsMember kv2 ++ (dumpsObjTail kvs ++ ('\x7d' :: rest))))
      (by omega) (digitHeadFree_cons (by decide) _)]
  simp only []
  rw [skipWs_cons_not_ws (by decide)]
  simp only [if_pos rfl, if_true]
  rw [parseMembers_sp, ht f' rest (by omega)]

theorem json_sizeOf_pos (v : Json) : 1 ≤ sizeOf v := by
  cases v <;> simp

theorem pair_sizeOf_pos (kv : String × Json) : 1 ≤ sizeOf kv := by
  obtain ⟨k, v⟩ := kv
  simp
  omega

/-- Mutual round-trip statement, by strong induction on size. -/
theorem parse_dumps_master : ∀ N : Nat,
    (∀ v : Json, sizeOf v ≤ N → ParsesVal v) ∧
    (∀ (x : Json) (xs : List Json), sizeOf x + sizeOf xs ≤ N → ParsesItems x xs) ∧
    (∀ (kv : String × Json) (kvs : List (String × Json)),
      sizeOf kv + sizeOf kvs ≤ N → ParsesMembers kv kvs) := by
  intro N
  induction N with
  | zero =>
    refine ⟨fun v hv => absurd hv ?_, fun x xs h => absurd h ?_,
      fun kv kvs h => absurd h ?_⟩
    · have := json_sizeOf_pos v
      omega
    · have := json_sizeOf_pos x
      omega
    · have := pair_sizeOf_pos kv
      omega
  | succ N ih =>
    obtain ⟨ihV, ihI, ihM⟩ := ih
    refine ⟨?_, ?_, ?_⟩
    · intro v hv
      match v, hv with
      | .null, _ => exact parsesVal_null
      | .bool b, _ => exact parsesVal_bool b
      | .int n, _ => exact parsesVal_int n
      | .str s, _ => exact parsesVal_str s
      | .arr [], _ => exact parsesVal_arrNil
      | .obj [], _ => exact parsesVal_objNil
      | .arr (x :: xs), hv =>
        refine parsesVal_arrCons x xs (ihI x xs ?_)
        simp at hv
        omega
      | .obj (kv :: kvs), hv =>
        refine parsesVal_objCons kv kvs (ihM kv kvs ?_)
        simp at hv
        omega
    · intro x xs h
      match xs, h with
      | [], h =>
        refine parsesItems_single x (ihV x ?_)
        simp at h
        omega
      | y :: ys, h =>
        have hx := json_sizeOf_pos x
        have hy := json_sizeOf_pos y
        simp at h
        exact parsesItems_cons x y ys (ihV x (by omega)) (ihI y ys (by omega))
    · intro kv kvs h
      obtain ⟨k, v⟩ := kv
      match kvs, h with
      | [], h =>
        refine parsesMembers_single k v (ihV v ?_)
        simp at h
        omega
      | kv2 :: kvs', h =>
        have h2 := pair_sizeOf_pos kv2
        simp at h
        exact parsesMembers_cons k v kv2 kvs' (ihV v (by omega))
          (ihM kv2 kvs' (by omega))

/-- `json.loads (json.dumps v) = v`: serialization round-trips. -/
theorem loads_dumps (v : Json) : Json.loads (Json.dumps v) = some v := by
  have h := (parse_dumps_master (sizeOf v)).1 v (le_refl _)
  have h2 := h ((dumpsChars v).length + 1) [] (by omega) rfl
  rw [List.append_nil] at h2
  rw [Json.loads, Json.dumps]
  have hd : (String.mk (dumpsChars v)).data = dumpsChars v := rfl
  have hl : (String.mk (dumpsChars v)).length = (dumpsChars v).length := rfl
  rw [hd, hl, h2]
  rfl

/-! ### `_errors.py`: error classification -/

/-- Substring test on character lists. -/
def startsWithChars : List Char → List Char → Bool
  | [], _ => true
  | p :: ps, c :: cs => p == c && startsWithChars ps cs
  | _ :: _, [] => false

/-- `pat in s` for Python strings. -/
def occursIn (pat s : String) : Bool :=
  go pat.data s.data
where
  go (p : List Char) : List Char → Bool
    | [] => startsWithChars p []
    | c :: cs => startsWithChars p (c :: cs) || go p cs

/-- Python `str.lower` (character-wise). -/
def lowerStr (s : String) : String := String.mk (s.data.map Char.toLower)

/-- `CONTEXT_WINDOW_OVERFLOW_MESSAGES` from `_errors.py`. -/
def CONTEXT_WINDOW_OVERFLOW_MESSAGES : List String :=
  ["prompt is too long", "input is too long", "maximum context length",
   "context window", "context length exceeded", "too many tokens"]

/-- What the caller of `handle_api_error` ends up raising.  `handle_api_error`
itself raises the typed exception (chaining the original as cause) when a
pattern matches and returns normally otherwise; every call site follows it
with a bare `raise`, re-raising the original error unchanged. -/
inductive RaisedError where
  | contextWindowOverflow (message : String) (cause : String) : RaisedError
  | modelThrottled (message : String) (cause : String) : RaisedError
  | original (error : String) : RaisedError

/-- `handle_api_error` from `_errors.py`, combined with the caller's
`raise`: the outcome of the `except` block around the gateway call. -/
def handle_api_error (error : String) : RaisedError :=
  let message := lowerStr error
  if CONTEXT_WINDOW_OVERFLOW_MESSAGES.any (fun pattern => occursIn pattern message) then
    .contextWindowOverflow error error
  else if occursIn "rate" message || occursIn "429" message ||
      occursIn "overloaded" message || occursIn "529" message then
    .modelThrottled error error
  else .original error

/-! ### Data model (`strands.types` as used by `_formatting.py`) -/

/-- `ToolUse`: `{toolUseId, name, input}`. -/
structure ToolUseB where
  toolUseId : String
  name : String
  input : Json

/-- One entry of a `ToolResult`'s content: `{json: ...}`, `{text: ...}` or
`{image: ...}`. -/
inductive TRContent where
  | jsonE (v : Json) : TRContent
  | textE (t : String) : TRContent
  | imageE (format : String) (bytes : List Nat) : TRContent

/-- `ToolResult`: `{toolUseId, content}`. -/
structure ToolResultB where
  toolUseId : String
  content : List TRContent

/-- `ContentBlock`: tagged variant, exactly one tag populated. -/
inductive ContentBlock where
  | text (t : String) : ContentBlock
  | image (format : String) (bytes : List Nat) : ContentBlock
  | toolUse (tu : ToolUseB) : ContentBlock
  | toolResult (tr : ToolResultB) : ContentBlock

/-- `SystemContentBlock`: `{text: ...}` or `{cachePoint: ...}`. -/
inductive SystemContentBlock where
  | text (t : String) : SystemContentBlock
  | cachePoint (kind : String) : SystemContentBlock

/-- A host message: role plus ordered content blocks. -/
structure Message where
  role : String
  content : List ContentBlock

/-- `ToolChoice`: tagged variant; `other` stands for any unrecognized shape
(the source falls through to `"auto"`). -/
inductive ToolChoice where
  | auto : ToolChoice
  | any : ToolChoice
  | tool (name : String) : ToolChoice
  | other : ToolChoice

/-- `ToolSpec`: `{name, description, inputSchema: {json: ...}}`. -/
structure ToolSpec where
  name : String
  description : String
  inputSchemaJson : Json

/-! ### `_formatting.py`: request formatting -/

/-- Modelled from the spec: the stdlib `mimetypes.types_map` lookup used by
`format_request_message_content` (the table itself is not part of src/);
resolves a MIME type from the declared image format, defaulting to
`application/octet-stream` when unrecognized. -/
def mime_type_for (format : String) : String :=
  match format with
  | "png" => "image/png"
  | "jpg" => "image/jpeg"
  | "jpeg" => "image/jpeg"
  | "gif" => "image/gif"
  | "webp" => "image/webp"
  | _ => "application/octet-stream"

def base64Table : List Char :=
  "ABCDEFGHIJKLMNOPQRSTUVWXYZabcdefghijklmnopqrstuvwxyz0123456789+/".data

def base64Char (n : Nat) : Char := base64Table.getD n 'A'

/-- Standard base64 of a byte list (stdlib `base64.b64encode`). -/
def b64chars : List Nat → List Char
  | [] => []
  | [b1] => [base64Char (b1 / 4), base64Char (b1 % 4 * 16), '=', '=']
  | [b1, b2] =>
    [base64Char (b1 / 4), base64Char (b1 % 4 * 16 + b2 / 16),
     base64Char (b2 % 16 * 4), '=']
  | b1 :: b2 :: b3 :: rest =>
    [base64Char (b1 / 4), base64Char (b1 % 4 * 16 + b2 / 16),
     base64Char (b2 % 16 * 4 + b3 / 64), base64Char (b3 % 64)] ++ b64chars rest

def base64Encode (bytes : List Nat) : String := String.mk (b64chars bytes)

/-- One formatted content part (OpenAI wire shape). -/
inductive FContent where
  | ftext (text : String) : FContent
  | fimageUrl (detail : String) (format : String) (url : String) : FContent

/-- One formatted tool call (OpenAI wire shape; `type` is always
`"function"`). -/
structure FToolCall where
  arguments : String
  name : String
  id : String

/-- A formatted message's `content` value: a plain string (system messages)
or a list of parts. -/
inductive FContentVal where
  | str (s : String) : FContentVal
  | parts (l : List FContent) : FContentVal

/-- Python truthiness of a formatted `content` value. -/
def FContentVal.isTruthy : FContentVal → Bool
  | .str s => !s.isEmpty
  | .parts l => !l.isEmpty

/-- A formatted (wire-level) message.  `toolCalls = none` models the absence
of the `tool_calls` key; likewise `toolCallId`. -/
structure FMessage where
  role : String
  content : FContentVal
  toolCalls : Option (List FToolCall) := none
  toolCallId : Option String := none

/-- `format_request_message_content`: failure models the `TypeError` raised
for unsupported block kinds. -/
def format_request_message_content : ContentBlock → Except String FContent
  | .image format bytes =>
    let mime := mime_type_for format
    .ok (.fimageUrl "auto" mime
      ("data:" ++ mime ++ ";base64," ++ base64Encode bytes))
  | .text t => .ok (.ftext t)
  | .toolUse _ => .error "unsupported type"
  | .toolResult _ => .error "unsupported type"

/-- `format_request_message_tool_call`. -/
def format_request_message_tool_call (tool_use : ToolUseB) : FToolCall :=
  { arguments := Json.dumps tool_use.input
    name := tool_use.name
    id := tool_use.toolUseId }

/-- `format_request_tool_message`: a `json` content entry is
JSON-stringified into a text block first, then every entry is formatted as
plain content. -/
def format_request_tool_message (tool_result : ToolResultB) : Except String FMessage := do
  let contents : List ContentBlock := tool_result.content.map fun content =>
    match content with
    | .jsonE v => .text (Json.dumps v)
    | .textE t => .text t
    | .imageE format bytes => .image format bytes
  let formatted ← contents.mapM format_request_message_content
  .ok { role := "tool"
        toolCallId := some tool_result.toolUseId
        content := .parts formatted }

/-- The `" ".join(...)` over the `text` blocks of `system_prompt_content`. -/
def systemTextOf (blocks : List SystemContentBlock) : String :=
  String.intercalate " " (blocks.filterMap fun block =>
    match block with
    | .text t => some t
    | .cachePoint _ => none)

/-- Python truthiness of the two tool-content membership tests. -/
def isToolContent : ContentBlock → Bool
  | .toolUse _ => true
  | .toolResult _ => true
  | _ => false

def contentToolUse : ContentBlock → Option ToolUseB
  | .toolUse tu => some tu
  | _ => none

def contentToolResult : ContentBlock → Option ToolResultB
  | .toolResult tr => some tr
  | _ => none

/-- `format_request_messages` from `_formatting.py`.  Python truthiness is
explicit: `if system_prompt_content:` is true only for a non-`None`,
non-empty list; `elif system_prompt:` only for a non-`None`, non-empty
string; the final filter keeps messages with truthy content or an attached
`tool_calls` key. -/
def format_request_messages (messages : List Message)
    (system_prompt : Option String := none)
    (system_prompt_content : Option (List SystemContentBlock) := none) :
    Except String (List FMessage) := do
  let base : List FMessage :=
    match system_prompt_content with
    | some (b :: bs) =>
      let system_text := systemTextOf (b :: bs)
      if !system_text.isEmpty then [{ role := "system", content := .str system_text }]
      else []
    | _ =>
      match system_prompt with
      | some sp => if !sp.isEmpty then [{ role := "system", content := .str sp }] else []
      | none => []
  let perMessage ← messages.mapM fun message => do
    let contents := message.content
    let formatted_contents ←
      (contents.filter (fun c => !isToolContent c)).mapM format_request_message_content
    let formatted_tool_calls :=
      (contents.filterMap contentToolUse).map format_request_message_tool_call
    let formatted_tool_messages ←
      (contents.filterMap contentToolResult).mapM format_request_tool_message
    let formatted_message : FMessage :=
      { role := message.role
        content := .parts formatted_contents
        toolCalls := if formatted_tool_calls.isEmpty then none else some formatted_tool_calls }
    .ok (formatted_message :: formatted_tool_messages)
  let all := base ++ perMessage.flatten
  .ok (all.filter fun m => m.content.isTruthy || m.toolCalls.isSome)

/-- OpenAI-compatible `tool_choice` value. -/
inductive FToolChoice where
  | auto : FToolChoice
  | required : FToolChoice
  | function (name : String) : FToolChoice

/-- `format_tool_choice`. -/
def format_tool_choice : ToolChoice → FToolChoice
  | .auto => .auto
  | .any => .required
  | .tool name => .function name
  | .other => .auto

/-! ### `model.py`: request payload -/

/-- One entry of the payload's `tools` array (`type` always `"function"`). -/
structure FToolDef where
  name : String
  description : String
  parameters : Json

/-- The wire-level request.  `tools = none` / `toolChoice = none` model the
absence of those keys; `params` are the extra provider parameters merged
verbatim (their keys are distinct from the structured fields below, which
`format_request` sets after the merge). -/
structure RequestPayload where
  messages : List FMessage
  model : String
  stream : Bool
  includeUsage : Bool
  params : List (String × Json)
  tools : Option (List FToolDef) := none
  toolChoice : Option FToolChoice := none

/-- `PortkeyModel.format_request`.  `if tool_specs:` is true only for a
non-`None`, non-empty list; the nested `if tool_choice:` only for a
non-`None` choice. -/
def format_request (model_id : String) (params : List (String × Json))
    (messages : List Message)
    (tool_specs : Option (List ToolSpec) := none)
    (system_prompt : Option String := none)
    (tool_choice : Option ToolChoice := none)
    (system_prompt_content : Option (List SystemContentBlock) := none) :
    Except String RequestPayload := do
  let msgs ← format_request_messages messages system_prompt system_prompt_content
  let base : RequestPayload :=
    { messages := msgs
      model := model_id
      stream := true
      includeUsage := true
      params := params }
  match tool_specs with
  | some (ts :: tss) =>
    let tools := (ts :: tss).map fun tool_spec =>
      { name := tool_spec.name
        description := tool_spec.description
        parameters := tool_spec.inputSchemaJson : FToolDef }
    match tool_choice with
    | some tc =>
      .ok { base with tools := some tools, toolChoice := some (format_tool_choice tc) }
    | none => .ok { base with tools := some tools }
  | _ => .ok base

/-! ### `model.py`: chunk translation (`format_chunk`) -/

/-- One streamed tool-call fragment (`delta.tool_calls[k]`). -/
structure ToolCallFrag where
  index : Nat
  id : Option String := none
  name : Option String := none
  arguments : Option String := none

/-- The upstream usage object. -/
structure RawUsage where
  prompt_tokens : Nat
  completion_tokens : Nat
  total_tokens : Nat

/-- The synthetic event dict handed to `format_chunk`. -/
inductive ChunkInput where
  | messageStart : ChunkInput
  | contentStartText : ChunkInput
  | contentStartTool (frag : ToolCallFrag) : ChunkInput
  | contentDeltaText (s : String) : ChunkInput
  | contentDeltaReasoning (s : String) : ChunkInput
  | contentDeltaTool (frag : ToolCallFrag) : ChunkInput
  | contentStopText : ChunkInput
  | contentStopTool : ChunkInput
  | messageStop (finish : Option String) : ChunkInput
  | metadata (usage : RawUsage) : ChunkInput

/-- The host framework's canonical stream events. -/
inductive StreamEvent where
  | messageStart (role : String) : StreamEvent
  | contentBlockStart (toolUse : Option (Option String × Option String)) : StreamEvent
  | contentBlockDeltaText (text : String) : StreamEvent
  | contentBlockDeltaToolUseInput (input : String) : StreamEvent
  | contentBlockDeltaReasoning (text : String) : StreamEvent
  | contentBlockStop : StreamEvent
  | messageStop (stopReason : String) : StreamEvent
  | metadata (inputTokens outputTokens totalTokens latencyMs : Nat) : StreamEvent

/-- The raw-finish-reason → stop-reason mapping of `format_chunk`'s
`message_stop` case: `tool_calls` → `tool_use`, `length` → `max_tokens`,
anything else (including a normal stop) → `end_turn`. -/
def stopReasonOf (finish : Option String) : String :=
  match finish with
  | some "tool_calls" => "tool_use"
  | some "length" => "max_tokens"
  | _ => "end_turn"

/-- `format_chunk` from `_formatting.py`: one canonical event per input.
For a tool `content_start` the name/id come from the fragment; for a tool
`content_delta` a `None` arguments fragment contributes `""`. -/
def format_chunk : ChunkInput → StreamEvent
  | .messageStart => .messageStart "assistant"
  | .contentStartText => .contentBlockStart none
  | .contentStartTool frag => .contentBlockStart (some (frag.name, frag.id))
  | .contentDeltaText s => .contentBlockDeltaText s
  | .contentDeltaReasoning s => .contentBlockDeltaReasoning s
  | .contentDeltaTool frag => .contentBlockDeltaToolUseInput (frag.arguments.getD "")
  | .contentStopText => .contentBlockStop
  | .contentStopTool => .contentBlockStop
  | .messageStop finish => .messageStop (stopReasonOf finish)
  | .metadata usage =>
    .metadata usage.prompt_tokens usage.completion_tokens usage.total_tokens 0

/-! ### `model.py`: the streaming orchestrator (`stream`) -/

/-- `delta` of a streamed choice. -/
structure RawDelta where
  content : Option String := none
  reasoning_content : Option String := none
  tool_calls : Option (List ToolCallFrag) := none

/-- A streamed choice. -/
structure RawChoice where
  delta : RawDelta
  finish_reason : Option String := none

/-- One raw streamed chunk. -/
structure RawChunk where
  choices : List RawChoice := []
  usage : Option RawUsage := none

/-- Python truthiness of an optional string (`None` and `""` are falsy). -/
def optStrTruthy : Option String → Bool
  | some s => !s.isEmpty
  | none => false

/-- The per-call tool-call accumulator: the Python `dict[int, list]`, i.e.
an insertion-ordered association list with unique keys. -/
abbrev ToolAcc := List (Nat × List ToolCallFrag)

/-- `tool_calls.setdefault(index, []).append(tc)`: append to an existing
key's list, or insert the key at the end. -/
def setdefaultAppend (acc : ToolAcc) (index : Nat) (frag : ToolCallFrag) : ToolAcc :=
  if (List.any acc fun p => p.1 == index) then
    List.map (fun p => if p.1 == index then (p.1, p.2 ++ [frag]) else p) acc
  else List.append acc [(index, [frag])]

/-- Result of the content-phase loop (`async for` up to the
finish-reason break). -/
structure ContentPhaseResult where
  events : List StreamEvent
  acc : ToolAcc
  eventVar : Option RawChunk
  choiceVar : Option RawChoice
  remaining : List RawChunk

/-- The content-phase loop of `stream`: chunks without choices are skipped;
text/reasoning deltas are emitted; tool fragments are accumulated by index;
a truthy finish reason breaks out of the loop. `eventVar`/`choiceVar` track
the Python local variables `event` and `choice` (unbound = `none`). -/
def contentPhase : List RawChunk → ToolAcc → Option RawChunk → Option RawChoice →
    ContentPhaseResult
  | [], acc, ev, ch => ⟨[], acc, ev, ch, []⟩
  | c :: rest, acc, _, ch =>
    match c.choices with
    | [] => contentPhase rest acc (some c) ch
    | choice :: _ =>
      let evs₁ : List StreamEvent :=
        match choice.delta.content with
        | some s => if s.isEmpty then [] else [format_chunk (.contentDeltaText s)]
        | none => []
      let evs₂ : List StreamEvent :=
        match choice.delta.reasoning_content with
        | some s => if s.isEmpty then [] else [format_chunk (.contentDeltaReasoning s)]
        | none => []
      let acc' := (choice.delta.tool_calls.getD []).foldl
        (fun a frag => setdefaultAppend a frag.index frag) acc
      if optStrTruthy choice.finish_reason then
        ⟨evs₁ ++ evs₂, acc', some c, some choice, rest⟩
      else
        let r := contentPhase rest acc' (some c) (some choice)
        ⟨evs₁ ++ evs₂ ++ r.events, r.acc, r.eventVar, r.choiceVar, r.remaining⟩

/-- Flush one accumulated tool call: `ContentBlockStart` from the first
fragment, one delta per fragment, then `ContentBlockStop`.  (Fragment lists
are non-empty by construction.) -/
def flushOne (frags : List ToolCallFrag) : List StreamEvent :=
  match frags with
  | [] => []
  | f :: _ =>
    format_chunk (.contentStartTool f) ::
      (frags.map fun frag => format_chunk (.contentDeltaTool frag)) ++
      [format_chunk .contentStopTool]

/-- Flush all accumulated tool calls in the accumulator's own
(insertion) order — `for tool_deltas in tool_calls.values()`. -/
def flushToolCalls (acc : ToolAcc) : List StreamEvent :=
  (List.map (fun p => flushOne p.2) acc).flatten

/-- Failures of the generator body itself (Python `UnboundLocalError`). -/
inductive StreamFailure where
  | unboundLocalChoice : StreamFailure
  | unboundLocalEvent : StreamFailure

/-- `PortkeyModel.stream` after a successful gateway call, as a function
from the raw chunk list to the emitted events plus an optional failure
(events already yielded before the failure are kept). -/
def stream (chunks : List RawChunk) : List StreamEvent × Option StreamFailure :=
  let pre := [format_chunk .messageStart, format_chunk .contentStartText]
  let r := contentPhase chunks [] none none
  let beforeStop := pre ++ r.events ++ [format_chunk .contentStopText] ++
    flushToolCalls r.acc
  match r.choiceVar with
  | none => (beforeStop, some .unboundLocalChoice)
  | some choice =>
    let afterStop := beforeStop ++ [format_chunk (.messageStop choice.finish_reason)]
    let eventVar :=
      match r.remaining.getLast? with
      | some c => some c
      | none => r.eventVar
    match eventVar with
    | none => (afterStop, some .unboundLocalEvent)
    | some ev =>
      match ev.usage with
      | some u => (afterStop ++ [format_chunk (.metadata u)], none)
      | none => (afterStop, none)

/-- The whole streaming call: a failing gateway call is classified by
`handle_api_error` before any event is emitted; otherwise the chunk stream
is translated. -/
def stream_call (gateway : Except String (List RawChunk)) :
    Except RaisedError (List StreamEvent × Option StreamFailure) :=
  match gateway with
  | .error e => .error (handle_api_error e)
  | .ok chunks => .ok (stream chunks)

/-! ### `model.py`: structured output -/

/-- One response choice of the non-streaming parse call:
`choice.message.parsed`. -/
structure SOChoice (α : Type) where
  parsed : Option α

/-- `PortkeyModel.structured_output` after the gateway call, parametrized by
the `isinstance(_, output_model)` test.  More than one choice is fatal; the
single choice's parsed payload must be an instance of the schema type; a
validated instance is truthy (pydantic models define no `__bool__`). -/
def structured_output {α : Type} (isInst : α → Bool) (choices : List (SOChoice α)) :
    Except String α :=
  if choices.length > 1 then .error "Multiple choices found in the response."
  else
    let parsed := choices.findSome? fun choice =>
      match choice.parsed with
      | some v => if isInst v then some v else none
      | none => none
    match parsed with
    | some v => .ok v
    | none => .error "No valid structured output was found in the response."

/-! ### Claim theorems -/

/-- C5: classification of gateway errors is first-match-wins over the
lowercased message text: any context-overflow fragment raises
`ContextWindowOverflow` chaining the original; otherwise any of
`"rate"`/`"429"`/`"overloaded"`/`"529"` raises `Throttled` chaining the
original; otherwise the original error propagates unchanged. -/
theorem c5_error_classification (error : String) :
    ((occursIn "prompt is too long" (lowerStr error) ||
      occursIn "input is too long" (lowerStr error) ||
      occursIn "maximum context length" (lowerStr error) ||
      occursIn "context window" (lowerStr error) ||
      occursIn "context length exceeded" (lowerStr error) ||
      occursIn "too many tokens" (lowerStr error)) = true →
        handle_api_error error = .contextWindowOverflow error error) ∧
    ((occursIn "prompt is too long" (lowerStr error) ||
      occursIn "input is too long" (lowerStr error) ||
      occursIn "maximum context length" (lowerStr error) ||
      occursIn "context window" (lowerStr error) ||
      occursIn "context length exceeded" (lowerStr error) ||
      occursIn "too many tokens" (lowerStr error)) = false →
     (occursIn "rate" (lowerStr error) || occursIn "429" (lowerStr error) ||
      occursIn "overloaded" (lowerStr error) ||
      occursIn "529" (lowerStr error)) = true →
        handle_api_error error = .modelThrottled error error) ∧
    ((occursIn "prompt is too long" (lowerStr error) ||
      occursIn "input is too long" (lowerStr error) ||
      occursIn "maximum context length" (lowerStr error) ||
      occursIn "context window" (lowerStr error) ||
      occursIn "context length exceeded" (lowerStr error) ||
      occursIn "too many tokens" (lowerStr error)) = false →
     (occursIn "rate" (lowerStr error) || occursIn "429" (lowerStr error) ||
      occursIn "overloaded" (lowerStr error) ||
      occursIn "529" (lowerStr error)) = false →
        handle_api_error error = .original error) := by
  have hany : (CONTEXT_WINDOW_OVERFLOW_MESSAGES.any
      (fun pattern => occursIn pattern (lowerStr error))) =
      (occursIn "prompt is too long" (lowerStr error) ||
       occursIn "input is too long" (lowerStr error) ||
       occursIn "maximum context length" (lowerStr error) ||
       occursIn "context window" (lowerStr error) ||
       occursIn "context length exceeded" (lowerStr error) ||
       occursIn "too many tokens" (lowerStr error)) := by
    simp [CONTEXT_WINDOW_OVERFLOW_MESSAGES, Bool.or_assoc]
  refine ⟨fun h1 => ?_, fun h1 h2 => ?_, fun h1 h2 => ?_⟩ <;>
    · simp only [handle_api_error]
      rw [hany, h1]
      simp_all

/-- C5 witness: Scenario E — a 429 message classifies as throttled, a
maximum-context-length message as context overflow, and `"disk full"`
passes through unchanged. -/
theorem c5_error_classification_witness :
    handle_api_error "Error code: 429 - Too Many Requests" =
      .modelThrottled "Error code: 429 - Too Many Requests"
        "Error code: 429 - Too Many Requests" ∧
    handle_api_error "maximum context length exceeded" =
      .contextWindowOverflow "maximum context length exceeded"
        "maximum context length exceeded" ∧
    handle_api_error "disk full" = .original "disk full" :=
  ⟨(c5_error_classification "Error code: 429 - Too Many Requests").2.1
      (by decide) (by decide),
   (c5_error_classification "maximum context length exceeded").1 (by decide),
   (c5_error_classification "disk full").2.2 (by decide) (by decide)⟩

/-- C9: structured output — more than one choice fails with the
multiple-choices error; zero choices, an absent parsed payload, or a parsed
payload that is not an instance of the schema type fail with the
no-valid-structured-output error; otherwise the single validated instance is
returned. -/
theorem c9_structured_output_cases {α : Type} (isInst : α → Bool)
    (choices : List (SOChoice α)) :
    (1 < choices.length →
      structured_output isInst choices = .error "Multiple choices found in the response.") ∧
    (choices = [] →
      structured_output isInst choices =
        .error "No valid structured output was found in the response.") ∧
    (∀ c, choices = [c] → c.parsed = none →
      structured_output isInst choices =
        .error "No valid structured output was found in the response.") ∧
    (∀ c v, choices = [c] → c.parsed = some v → isInst v = false →
      structured_output isInst choices =
        .error "No valid structured output was found in the response.") ∧
    (∀ c v, choices = [c] → c.parsed = some v → isInst v = true →
      structured_output isInst choices = .ok v) := by
  refine ⟨fun h => ?_, fun h => ?_, fun c h hp => ?_, fun c v h hp hi => ?_,
    fun c v h hp hi => ?_⟩
  · unfold structured_output
    rw [if_pos (by omega)]
  · subst h
    rfl
  · subst h
    unfold structured_output
    simp [List.findSome?, hp]
  · subst h
    unfold structured_output
    simp [List.findSome?, hp, hi]
  · subst h
    unfold structured_output
    simp [List.findSome?, hp, hi]

/-- C9 witness: concrete instances of all five cases over `α = Nat` with
`isInst = (· ≠ 0)`. -/
theorem c9_structured_output_witness :
    structured_output (fun n => n ≠ 0 : Nat → Bool) [⟨some 1⟩, ⟨some 2⟩] =
      .error "Multiple choices found in the response." ∧
    structured_output (fun n => n ≠ 0 : Nat → Bool) [] =
      .error "No valid structured output was found in the response." ∧
    structured_output (fun n => n ≠ 0 : Nat → Bool) [⟨none⟩] =
      .error "No valid structured output was found in the response." ∧
    structured_output (fun n => n ≠ 0 : Nat → Bool) [⟨some 0⟩] =
      .error "No valid structured output was found in the response." ∧
    structured_output (fun n => n ≠ 0 : Nat → Bool) [⟨some 7⟩] = .ok 7 :=
  ⟨(c9_structured_output_cases _ _).1 (by decide),
   (c9_structured_output_cases _ _).2.1 rfl,
   (c9_structured_output_cases _ _).2.2.1 ⟨none⟩ rfl rfl,
   (c9_structured_output_cases _ _).2.2.2.1 ⟨some 0⟩ 0 rfl rfl (by decide),
   (c9_structured_output_cases _ _).2.2.2.2 ⟨some 7⟩ 7 rfl rfl (by decide)⟩

/-- C1 counterexample: with `system_prompt = "sysP"` and
`system_prompt_content = []`, the formatter DOES emit a system message
(the empty list is falsy in `if system_prompt_content:`, so the code falls
back to `system_prompt` instead of treating the empty list as an explicit
override). -/
theorem c1_counterexample :
    (format_request_messages [{ role := "user", content := [.text "Hi"] }]
        (some "sysP") (some [])).map (fun msgs => msgs.map FMessage.role) =
      .ok ["system", "user"] := rfl

/-- C1 amended: an empty `systemPromptContent` list does not override
`systemPrompt`; it is treated exactly as if `systemPromptContent` were
absent, so the formatter falls back to emitting `systemPrompt` (when
non-empty) as the system message. -/
theorem c1_empty_spc_falls_back (messages : List Message)
    (system_prompt : Option String) :
    format_request_messages messages system_prompt (some []) =
      format_request_messages messages system_prompt none := rfl

/-- C7: the payload's `tools` key is present iff the supplied tool-spec
list is non-empty; `toolChoice` is present iff `tools` is present and a
choice was supplied; `Specific{name}` with at least one spec renders as
`{type: function, function: {name}}`; with zero specs both keys are
absent. -/
theorem c7_tools_toolchoice_presence (model_id : String)
    (params : List (String × Json)) (messages : List Message)
    (tool_specs : Option (List ToolSpec)) (system_prompt : Option String)
    (tool_choice : Option ToolChoice)
    (system_prompt_content : Option (List SystemContentBlock))
    (payload : RequestPayload)
    (h : format_request model_id params messages tool_specs system_prompt
      tool_choice system_prompt_content = .ok payload) :
    (payload.tools.isSome ↔ tool_specs.getD [] ≠ []) ∧
    (payload.toolChoice.isSome ↔ (tool_specs.getD [] ≠ [] ∧ tool_choice.isSome)) ∧
    (∀ name, tool_choice = some (.tool name) → tool_specs.getD [] ≠ [] →
      payload.toolChoice = some (.function name)) ∧
    (tool_specs.getD [] = [] → payload.tools = none ∧ payload.toolChoice = none) := by
  unfold format_request at h
  cases hm : format_request_messages messages system_prompt system_prompt_content with
  | error e =>
    rw [hm] at h
    exact absurd h (by simp [Bind.bind, Except.bind])
  | ok msgs =>
    rw [hm] at h
    simp only [Bind.bind, Except.bind] at h
    match tool_specs, h with
    | none, h =>
      cases h
      simp
    | some [], h =>
      cases h
      simp
    | some (ts :: tss), h =>
      match tool_choice, h with
      | none, h =>
        cases h
        simp
      | some tc, h =>
        cases h
        refine ⟨by simp, by simp, fun name hname _ => ?_, by simp⟩
        cases hname
        rfl

/-- The concrete payload produced in the C7 witness scenario. -/
def c7ScenarioPayload : RequestPayload :=
  { messages := [], model := "m", stream := true, includeUsage := true,
    params := [], tools := some [⟨"get_weather", "d", Json.null⟩],
    toolChoice := some (.function "get_weather") }

/-- The payload produced when zero tool specs are supplied. -/
def c7ScenarioNoToolsPayload : RequestPayload :=
  { messages := [], model := "m", stream := true, includeUsage := true, params := [] }

/-- C7 witness: Scenario D at concrete inputs — `Specific{get_weather}`
with one tool spec yields a present `tools` key and
`toolChoice = {type: function, function: {name: get_weather}}`; with zero
tool specs both keys are absent. -/
theorem c7_tools_toolchoice_presence_witness :
    c7ScenarioPayload.tools.isSome ∧
    c7ScenarioPayload.toolChoice = some (.function "get_weather") ∧
    c7ScenarioNoToolsPayload.tools = none ∧
    c7ScenarioNoToolsPayload.toolChoice = none :=
  ⟨(c7_tools_toolchoice_presence "m" [] [] (some [⟨"get_weather", "d", Json.null⟩])
      none (some (.tool "get_weather")) none c7ScenarioPayload rfl).1.mpr (by simp),
   (c7_tools_toolchoice_presence "m" [] [] (some [⟨"get_weather", "d", Json.null⟩])
      none (some (.tool "get_weather")) none c7ScenarioPayload rfl).2.2.1
      "get_weather" rfl (by simp),
   (c7_tools_toolchoice_presence "m" [] [] (some []) none
      (some (.tool "get_weather")) none c7ScenarioNoToolsPayload rfl).2.2.2 rfl |>.1,
   (c7_tools_toolchoice_presence "m" [] [] (some []) none
      (some (.tool "get_weather")) none c7ScenarioNoToolsPayload rfl).2.2.2 rfl |>.2⟩


/-- The parts list of a formatted content value (empty for the string
form). -/
def FContentVal.partsD : FContentVal → List FContent
  | .str _ => []
  | .parts l => l

theorem mapM_except_ok_get {α β : Type} (f : α → Except String β) :
    ∀ (xs : List α) (ys : List β), xs.mapM f = .ok ys →
      ∀ (i : Nat) (x : α), xs[i]? = some x → ∃ y, ys[i]? = some y ∧ f x = .ok y := by
  intro xs
  induction xs with
  | nil =>
    intro ys h i x hx
    simp at hx
  | cons a l ih =>
    intro ys h i x hx
    rw [List.mapM_cons] at h
    cases hfa : f a with
    | error e =>
      rw [hfa] at h
      simp [Bind.bind, Except.bind] at h
    | ok b =>
      rw [hfa] at h
      simp only [Bind.bind, Except.bind] at h
      cases hml : l.mapM f with
      | error e =>
        rw [hml] at h
        simp at h
      | ok bs =>
        rw [hml] at h
        simp only [pure, Except.pure, Except.ok.injEq] at h
        subst h
        match i, hx with
        | 0, hx =>
          simp at hx
          subst hx
          exact ⟨b, by simp, hfa⟩
        | i + 1, hx =>
          simp at hx
          obtain ⟨y, hy, hfy⟩ := ih bs hml i x hx
          exact ⟨y, by simpa using hy, hfy⟩

/-- C8: a `ToolResult` block with a `json` content entry is formatted as a
separate tool-role message whose `toolCallId` is the result's `toolUseId`,
and whose corresponding text part is the JSON serialization of the value;
JSON-parsing that text recovers the original value (round-trip). -/
theorem c8_tool_result_json_roundtrip (tool_result : ToolResultB) (i : Nat)
    (v : Json) (msg : FMessage)
    (hget : tool_result.content[i]? = some (.jsonE v))
    (hok : format_request_tool_message tool_result = .ok msg) :
    msg.role = "tool" ∧
    msg.toolCallId = some tool_result.toolUseId ∧
    msg.content.partsD[i]? = some (.ftext (Json.dumps v)) ∧
    Json.loads (Json.dumps v) = some v := by
  unfold format_request_tool_message at hok
  simp only [Bind.bind, Except.bind] at hok
  cases hm : (tool_result.content.map fun content =>
      match content with
      | .jsonE v => ContentBlock.text (Json.dumps v)
      | .textE t => ContentBlock.text t
      | .imageE format bytes => ContentBlock.image format bytes).mapM
      format_request_message_content with
  | error e =>
    rw [hm] at hok
    simp at hok
  | ok formatted =>
    rw [hm] at hok
    simp only [pure, Except.pure, Except.ok.injEq] at hok
    subst hok
    refine ⟨rfl, rfl, ?_, loads_dumps v⟩
    have hx : (tool_result.content.map fun content =>
        match content with
        | .jsonE v => ContentBlock.text (Json.dumps v)
        | .textE t => ContentBlock.text t
        | .imageE format bytes => ContentBlock.image format bytes)[i]? =
        some (.text (Json.dumps v)) := by
      rw [List.getElem?_map, hget]
      rfl
    obtain ⟨y, hy, hfy⟩ := mapM_except_ok_get format_request_message_content _
      formatted hm i _ hx
    cases hfy
    exact hy

/-- The formatted message of the C8 witness. -/
def c8ScenarioMsg : FMessage :=
  { role := "tool", toolCallId := some "tid", content := .parts [.ftext "5"] }

/-- C8 witness: the tool result `{toolUseId: "tid", content: [{json: 5}]}`
formats to a tool message whose text `"5"` parses back to `5`. -/
theorem c8_tool_result_json_roundtrip_witness :
    c8ScenarioMsg.role = "tool" ∧
    c8ScenarioMsg.toolCallId = some (ToolResultB.mk "tid" [.jsonE (.int 5)]).toolUseId ∧
    c8ScenarioMsg.content.partsD[0]? = some (.ftext (Json.dumps (.int 5))) ∧
    Json.loads (Json.dumps (.int 5)) = some (.int 5) :=
  c8_tool_result_json_roundtrip ⟨"tid", [.jsonE (.int 5)]⟩ 0 (.int 5)
    c8ScenarioMsg rfl rfl


/-! ### Structure of the streaming orchestrator's output -/

/-- The tool-call fragments consumed by the content phase, in arrival
order (fragments of the finish-reason chunk included, later chunks not). -/
def contentFrags : List RawChunk → List ToolCallFrag
  | [] => []
  | c :: rest =>
    match c.choices with
    | [] => contentFrags rest
    | choice :: _ =>
      let fs := choice.delta.tool_calls.getD []
      if optStrTruthy choice.finish_reason then fs else fs ++ contentFrags rest

/-- The accumulator built from a fragment list (starting empty). -/
def accOf (fs : List ToolCallFrag) : ToolAcc :=
  fs.foldl (fun a frag => setdefaultAppend a frag.index frag) []

/-- Last element of a list, with a fallback. -/
def lastOr (l : List RawChunk) (d : Option RawChunk) : Option RawChunk :=
  match l.getLast? with
  | some c => some c
  | none => d

theorem lastOr_cons (c : RawChunk) (l : List RawChunk) (d : Option RawChunk) :
    lastOr (c :: l) d = lastOr l (some c) := by
  cases l with
  | nil => rfl
  | cons x xs => simp [lastOr, List.getLast?]

theorem contentPhase_acc : ∀ (chunks : List RawChunk) (acc : ToolAcc)
    (ev : Option RawChunk) (ch : Option RawChoice),
    (contentPhase chunks acc ev ch).acc =
      (contentFrags chunks).foldl (fun a frag => setdefaultAppend a frag.index frag) acc := by
  intro chunks
  induction chunks with
  | nil => intro acc ev ch; rfl
  | cons c rest ih =>
    intro acc ev ch
    rw [contentPhase, contentFrags]
    cases hc : c.choices with
    | nil => exact ih acc (some c) ch
    | cons choice _ =>
      simp only []
      by_cases hf : optStrTruthy choice.finish_reason
      · rw [if_pos hf, if_pos hf]
      · rw [if_neg hf, if_neg hf]
        simp only []
        rw [ih, List.foldl_append]

theorem mem_textDeltaOpt {e : StreamEvent} {o : Option String}
    (he : e ∈ (match o with
      | some s => if s.isEmpty then [] else [format_chunk (.contentDeltaText s)]
      | none => ([] : List StreamEvent))) :
    ∃ s, e = .contentBlockDeltaText s := by
  cases o with
  | none => simp at he
  | some s =>
    simp only [] at he
    split at he <;> simp_all [format_chunk]

theorem mem_reasoningDeltaOpt {e : StreamEvent} {o : Option String}
    (he : e ∈ (match o with
      | some s => if s.isEmpty then [] else [format_chunk (.contentDeltaReasoning s)]
      | none => ([] : List StreamEvent))) :
    ∃ s, e = .contentBlockDeltaReasoning s := by
  cases o with
  | none => simp at he
  | some s =>
    simp only [] at he
    split at he <;> simp_all [format_chunk]

theorem contentPhase_events_delta : ∀ (chunks : List RawChunk) (acc : ToolAcc)
    (ev : Option RawChunk) (ch : Option RawChoice),
    ∀ e ∈ (contentPhase chunks acc ev ch).events,
      (∃ s, e = .contentBlockDeltaText s) ∨ (∃ s, e = .contentBlockDeltaReasoning s) := by
  intro chunks
  induction chunks with
  | nil => intro acc ev ch e he; simp [contentPhase] at he
  | cons c rest ih =>
    intro acc ev ch e he
    rw [contentPhase] at he
    cases hc : c.choices with
    | nil =>
      rw [hc] at he
      exact ih acc (some c) ch e he
    | cons choice _ =>
      rw [hc] at he
      simp only [] at he
      by_cases hf : optStrTruthy choice.finish_reason
      · rw [if_pos hf] at he
        simp only [List.mem_append] at he
        rcases he with he | he
        · exact Or.inl (mem_textDeltaOpt he)
        · exact Or.inr (mem_reasoningDeltaOpt he)
      · rw [if_neg hf] at he
        simp only [List.mem_append] at he
        rcases he with (he | he) | he
        · exact Or.inl (mem_textDeltaOpt he)
        · exact Or.inr (mem_reasoningDeltaOpt he)
        · exact ih _ _ _ e he


theorem contentPhase_choiceVar_stays_some : ∀ (chunks : List RawChunk) (acc : ToolAcc)
    (ev : Option RawChunk) (x : RawChoice),
    ∃ y, (contentPhase chunks acc ev (some x)).choiceVar = some y := by
  intro chunks
  induction chunks with
  | nil => intro acc ev x; exact ⟨x, rfl⟩
  | cons c rest ih =>
    intro acc ev x
    rw [contentPhase]
    cases hc : c.choices with
    | nil => exact ih acc (some c) x
    | cons choice _ =>
      simp only []
      by_cases hf : optStrTruthy choice.finish_reason
      · rw [if_pos hf]
        exact ⟨choice, rfl⟩
      · rw [if_neg hf]
        exact ih _ (some c) choice

theorem contentPhase_choiceVar_some : ∀ (chunks : List RawChunk) (acc : ToolAcc)
    (ev : Option RawChunk) (ch : Option RawChoice),
    (∃ c ∈ chunks, c.choices ≠ []) →
    ∃ y, (contentPhase chunks acc ev ch).choiceVar = some y := by
  intro chunks
  induction chunks with
  | nil =>
    intro acc ev ch h
    simp at h
  | cons c rest ih =>
    intro acc ev ch h
    rw [contentPhase]
    cases hc : c.choices with
    | nil =>
      have h' : ∃ c ∈ rest, c.choices ≠ [] := by
        rcases h with ⟨d, hd, hne⟩
        cases hd with
        | head => exact absurd hc hne
        | tail _ hm => exact ⟨d, hm, hne⟩
      exact ih acc (some c) ch h'
    | cons choice _ =>
      simp only []
      by_cases hf : optStrTruthy choice.finish_reason
      · rw [if_pos hf]
        exact ⟨choice, rfl⟩
      · rw [if_neg hf]
        exact contentPhase_choiceVar_stays_some _ _ (some c) choice

theorem contentPhase_lastOr : ∀ (chunks : List RawChunk) (acc : ToolAcc)
    (ev : Option RawChunk) (ch : Option RawChoice),
    lastOr (contentPhase chunks acc ev ch).remaining
      (contentPhase chunks acc ev ch).eventVar = lastOr chunks ev := by
  intro chunks
  induction chunks with
  | nil => intro acc ev ch; rfl
  | cons c rest ih =>
    intro acc ev ch
    rw [contentPhase, lastOr_cons]
    cases hc : c.choices with
    | nil => exact ih acc (some c) ch
    | cons choice _ =>
      simp only []
      by_cases hf : optStrTruthy choice.finish_reason
      · rw [if_pos hf]
      · rw [if_neg hf]
        exact ih _ (some c) (some choice)

theorem flushOne_shape (frags : List ToolCallFrag) :
    ∀ e ∈ flushOne frags,
      (∃ tu, e = .contentBlockStart (some tu)) ∨
      (∃ s, e = .contentBlockDeltaToolUseInput s) ∨ e = .contentBlockStop := by
  intro e he
  match frags with
  | [] => simp [flushOne] at he
  | f :: fs =>
    rw [flushOne] at he
    rcases List.mem_cons.mp he with rfl | he2
    · exact Or.inl ⟨(f.name, f.id), rfl⟩
    · rcases List.mem_append.mp he2 with he3 | he3
      · obtain ⟨frag, _, hfr⟩ := List.mem_map.mp he3
        exact Or.inr (Or.inl ⟨frag.arguments.getD "", by rw [← hfr]; rfl⟩)
      · rw [List.mem_singleton.mp he3]
        exact Or.inr (Or.inr rfl)

theorem flushToolCalls_shape (acc : ToolAcc) :
    ∀ e ∈ flushToolCalls acc,
      (∃ tu, e = .contentBlockStart (some tu)) ∨
      (∃ s, e = .contentBlockDeltaToolUseInput s) ∨ e = .contentBlockStop := by
  intro e he
  rw [flushToolCalls] at he
  simp only [List.mem_flatten, List.mem_map] at he
  obtain ⟨l, ⟨p, _, hl⟩, hel⟩ := he
  rw [← hl] at hel
  exact flushOne_shape p.2 e hel

/-- Decomposition of a successful `stream` run into its phases. -/
theorem stream_decomp (chunks : List RawChunk)
    (h : ∃ c ∈ chunks, c.choices ≠ []) :
    ∃ choice : RawChoice,
      (contentPhase chunks [] none none).choiceVar = some choice ∧
      stream chunks =
        ([format_chunk .messageStart, format_chunk .contentStartText] ++
          (contentPhase chunks [] none none).events ++
          [format_chunk .contentStopText] ++
          flushToolCalls (accOf (contentFrags chunks)) ++
          [format_chunk (.messageStop choice.finish_reason)] ++
          (match chunks.getLast?.bind RawChunk.usage with
           | some u => [format_chunk (.metadata u)]
           | none => []), none) := by
  obtain ⟨choice, hch⟩ := contentPhase_choiceVar_some chunks [] none none h
  refine ⟨choice, hch, ?_⟩
  have hne : chunks ≠ [] := by
    rcases h with ⟨c, hc, _⟩
    intro he
    rw [he] at hc
    simp at hc
  have hlast : ∃ lc, chunks.getLast? = some lc := by
    cases hl : chunks.getLast? with
    | some lc => exact ⟨lc, rfl⟩
    | none => exact absurd (List.getLast?_eq_none_iff.mp hl) hne
  obtain ⟨lc, hlc⟩ := hlast
  have hev : (match (contentPhase chunks [] none none).remaining.getLast? with
      | some c => some c
      | none => (contentPhase chunks [] none none).eventVar) = some lc := by
    have := contentPhase_lastOr chunks [] none none
    rw [lastOr] at this
    rw [lastOr, hlc] at this
    split at this
    all_goals simp_all
  rw [stream]
  rw [hch]
  simp only []
  rw [hev]
  simp only []
  rw [contentPhase_acc chunks [] none none]
  rw [hlc]
  cases hu : lc.usage with
  | some u =>
    simp only [Option.some_bind, hu, accOf, List.append_assoc]
  | none =>
    simp only [Option.some_bind, hu, accOf, List.append_assoc, List.append_nil]


theorem format_chunk_messageStop_shape (finish : Option String) :
    ∃ r, format_chunk (.messageStop finish) = .messageStop r :=
  ⟨stopReasonOf finish, rfl⟩

/-- C3: for a successful streaming run (some chunk carries choice data and
a finish reason), `MessageStart` is the first event, all content-block
events precede the single `MessageStop`, tool-call blocks are flushed only
after the eagerly opened text block is closed, and `Metadata`, when
emitted, is strictly the last event. -/
theorem c3_event_order (chunks : List RawChunk)
    (hchoice : ∃ c ∈ chunks, c.choices ≠ [])
    (hfinish : ∃ c ∈ chunks, ∃ choice ∈ c.choices,
      optStrTruthy choice.finish_reason = true) :
    (stream chunks).2 = none ∧
    ∃ deltas flush reason metaTail,
      (stream chunks).1 =
        [.messageStart "assistant", .contentBlockStart none] ++ deltas ++
          [.contentBlockStop] ++ flush ++ [.messageStop reason] ++ metaTail ∧
      (∀ e ∈ deltas, (∃ s, e = .contentBlockDeltaText s) ∨
        (∃ s, e = .contentBlockDeltaReasoning s)) ∧
      (∀ e ∈ flush, (∃ tu, e = .contentBlockStart (some tu)) ∨
        (∃ s, e = .contentBlockDeltaToolUseInput s) ∨ e = .contentBlockStop) ∧
      (metaTail = [] ∨ ∃ i o t, metaTail = [.metadata i o t 0]) := by
  clear hfinish
  obtain ⟨choice, hch, heq⟩ := stream_decomp chunks hchoice
  obtain ⟨reason, hreason⟩ := format_chunk_messageStop_shape choice.finish_reason
  constructor
  · rw [heq]
  refine ⟨(contentPhase chunks [] none none).events,
    flushToolCalls (accOf (contentFrags chunks)), reason,
    (match chunks.getLast?.bind RawChunk.usage with
     | some u => [format_chunk (.metadata u)]
     | none => []), ?_, ?_, ?_, ?_⟩
  · rw [heq]
    simp only [List.append_assoc, List.cons_append, List.nil_append, hreason]
    rfl
  · exact contentPhase_events_delta chunks [] none none
  · exact flushToolCalls_shape _
  · cases chunks.getLast?.bind RawChunk.usage with
    | none => exact Or.inl rfl
    | some u => exact Or.inr ⟨u.prompt_tokens, u.completion_tokens, u.total_tokens, rfl⟩

/-- The raw chunks of Scenario B: two text deltas, a finish reason, and a
trailing usage chunk. -/
def scenarioB : List RawChunk :=
  [ { choices := [{ delta := { content := some "Hello" } }] },
    { choices := [{ delta := { content := some " world" }, finish_reason := some "stop" }] },
    { usage := some ⟨10, 5, 15⟩ } ]

/-- C3 witness: Scenario B completes without failure and produces exactly
the spec's event sequence, with `Metadata` last. -/
theorem c3_event_order_witness :
    (stream scenarioB).2 = none ∧
    (stream scenarioB).1 =
      [.messageStart "assistant", .contentBlockStart none,
       .contentBlockDeltaText "Hello", .contentBlockDeltaText " world",
       .contentBlockStop, .messageStop "end_turn", .metadata 10 5 15 0] :=
  ⟨(c3_event_order scenarioB
      ⟨{ choices := [{ delta := { content := some "Hello" } }] },
        by simp [scenarioB], by simp⟩
      ⟨{ choices := [{ delta := { content := some " world" }, finish_reason := some "stop" }] },
        by simp [scenarioB],
        ⟨{ delta := { content := some " world" }, finish_reason := some "stop" },
          by simp, by decide⟩⟩).1,
   rfl⟩

theorem contentPhase_all_skipped : ∀ (chunks : List RawChunk) (acc : ToolAcc)
    (ev : Option RawChunk), (∀ c ∈ chunks, c.choices = []) →
    (contentPhase chunks acc ev none).events = [] ∧
    (contentPhase chunks acc ev none).acc = acc ∧
    (contentPhase chunks acc ev none).choiceVar = none := by
  intro chunks
  induction chunks with
  | nil => intro acc ev _; exact ⟨rfl, rfl, rfl⟩
  | cons c rest ih =>
    intro acc ev h
    rw [contentPhase]
    rw [h c (List.mem_cons_self c rest)]
    exact ih acc (some c) fun d hd => h d (List.mem_cons_of_mem c hd)

/-- C10: when no chunk carries choice data (empty stream or keepalives
only), the orchestrator emits `MessageStart`, `ContentBlockStart` and
`ContentBlockStop`, and then fails with an unbound-local-variable error
when building `MessageStop` (`choice` was never assigned), instead of
completing or raising a documented typed error. -/
theorem c10_no_choice_unbound_local (chunks : List RawChunk)
    (h : ∀ c ∈ chunks, c.choices = []) :
    stream chunks =
      ([.messageStart "assistant", .contentBlockStart none, .contentBlockStop],
        some .unboundLocalChoice) := by
  obtain ⟨he, ha, hc⟩ := contentPhase_all_skipped chunks [] none h
  rw [stream, hc]
  simp only [he, ha]
  rfl

/-- C10 witness: a single keepalive chunk without choices yields the three
events and then the unbound-local failure. -/
theorem c10_no_choice_unbound_local_witness :
    stream [{ choices := [] }] =
      ([.messageStart "assistant", .contentBlockStart none, .contentBlockStop],
        some .unboundLocalChoice) :=
  c10_no_choice_unbound_local [{ choices := [] }] (by simp)


/-! ### Characterization of the accumulator (`dict` semantics) -/

/-- `tool_calls[i]`, when present. -/
def accLookup (acc : ToolAcc) (i : Nat) : Option (List ToolCallFrag) :=
  match acc with
  | [] => none
  | p :: rest => if p.1 = i then some p.2 else accLookup rest i

theorem accLookup_map_upd (j : Nat) (f : ToolCallFrag) (i : Nat) : ∀ (acc : ToolAcc),
    accLookup (acc.map (fun p => if p.1 == j then (p.1, p.2 ++ [f]) else p)) i =
      if i = j then (accLookup acc i).map (· ++ [f]) else accLookup acc i := by
  intro acc
  induction acc with
  | nil => by_cases h : i = j <;> simp [accLookup, h]
  | cons p rest ih =>
    simp only [List.map_cons, beq_iff_eq] at ih ⊢
    by_cases hpj : p.1 = j <;> by_cases hpi : p.1 = i <;>
      [skip; skip; skip; skip] <;>
      first
      | (have hij : i = j := by rw [← hpi, hpj]
         simp_all [accLookup])
      | (have hij : ¬(i = j) := by
           first
           | exact fun he => hpi (by rw [hpj, he])
           | exact fun he => hpj (by rw [hpi, he])
         simp_all [accLookup])
      | simp_all [accLookup]

theorem accLookup_append_new (j : Nat) (f : ToolCallFrag) (i : Nat) :
    ∀ (acc : ToolAcc),
    accLookup (acc ++ [(j, [f])]) i =
      match accLookup acc i with
      | some l => some l
      | none => if i = j then some [f] else none := by
  intro acc
  induction acc with
  | nil =>
    by_cases h : i = j
    · simp [accLookup, h]
    · have hji : ¬j = i := fun he => h he.symm
      simp [accLookup, h, hji]
  | cons p rest ih =>
    by_cases hpi : p.1 = i
    · simp [accLookup, hpi]
    · simp only [List.cons_append]
      simp [accLookup, hpi, ih]

theorem any_key_iff_lookup (acc : ToolAcc) (j : Nat) :
    (List.any acc fun p => p.1 == j) = true ↔ ∃ l, accLookup acc j = some l := by
  induction acc with
  | nil => simp [accLookup]
  | cons p rest ih =>
    by_cases hpj : p.1 = j
    · simp [accLookup, hpj]
    · simp [accLookup, hpj, ih]

theorem accLookup_setdefaultAppend (acc : ToolAcc) (j : Nat) (f : ToolCallFrag) (i : Nat) :
    accLookup (setdefaultAppend acc j f) i =
      if i = j then some ((accLookup acc j).getD [] ++ [f])
      else accLookup acc i := by
  unfold setdefaultAppend
  by_cases hany : (List.any acc fun p => p.1 == j) = true
  · rw [if_pos hany, accLookup_map_upd]
    obtain ⟨l, hl⟩ := (any_key_iff_lookup acc j).mp hany
    by_cases h : i = j
    · rw [if_pos h, if_pos h, h, hl]
      rfl
    · rw [if_neg h, if_neg h]
  · rw [if_neg hany]
    have hnone : accLookup acc j = none := by
      cases hl : accLookup acc j with
      | none => rfl
      | some l => exact absurd ((any_key_iff_lookup acc j).mpr ⟨l, hl⟩) hany
    rw [show List.append acc [(j, [f])] = acc ++ [(j, [f])] from rfl,
      accLookup_append_new]
    by_cases h : i = j
    · rw [if_pos h, h, hnone]
      simp
    · cases hl : accLookup acc i with
      | none => simp [h]
      | some l => simp [h]

theorem accLookup_foldl : ∀ (fs : List ToolCallFrag) (acc : ToolAcc) (i : Nat),
    accLookup (fs.foldl (fun a frag => setdefaultAppend a frag.index frag) acc) i =
      match accLookup acc i with
      | some l => some (l ++ fs.filter (fun f => f.index == i))
      | none =>
        if (fs.any fun f => f.index == i) then some (fs.filter fun f => f.index == i)
        else none := by
  intro fs
  induction fs with
  | nil =>
    intro acc i
    cases hl : accLookup acc i <;> simp [hl]
  | cons f fs ih =>
    intro acc i
    rw [List.foldl_cons, ih, accLookup_setdefaultAppend]
    by_cases hfi : i = f.index
    · have hfi2 : (f.index == i) = true := by simp [hfi]
      rw [if_pos hfi, hfi]
      cases hl : accLookup acc f.index with
      | some l => simp [hfi2, List.append_assoc]
      | none => simp [hfi2]
    · have hfi2 : (f.index == i) = false := by
        simp only [beq_eq_false_iff_ne, ne_eq]
        exact fun he => hfi (he ▸ rfl)
      rw [if_neg hfi]
      cases hl : accLookup acc i with
      | some l => simp [hfi2]
      | none => simp [hfi2]

theorem accLookup_accOf (fs : List ToolCallFrag) (i : Nat) :
    accLookup (accOf fs) i =
      if (fs.any fun f => f.index == i) then some (fs.filter fun f => f.index == i)
      else none := by
  rw [accOf, accLookup_foldl]
  rfl

theorem mem_of_accLookup (i : Nat) (l : List ToolCallFrag) : ∀ (acc : ToolAcc),
    accLookup acc i = some l → (i, l) ∈ acc := by
  intro acc
  induction acc with
  | nil => intro h; simp [accLookup] at h
  | cons p rest ih =>
    intro h
    rw [accLookup] at h
    by_cases hpi : p.1 = i
    · rw [if_pos hpi] at h
      cases h
      subst hpi
      exact List.mem_cons_self p rest
    · rw [if_neg hpi] at h
      exact List.mem_cons_of_mem p (ih h)

theorem accOf_mem (fs : List ToolCallFrag) (i : Nat)
    (h : (fs.any fun f => f.index == i) = true) :
    (i, fs.filter fun f => f.index == i) ∈ accOf fs :=
  mem_of_accLookup i _ (accOf fs) (by rw [accLookup_accOf, if_pos h])


/-- The indices in order of first occurrence (Python dict key order). -/
def firstKeys : List Nat → List Nat
  | [] => []
  | i :: is => i :: firstKeys (is.filter (fun j => j != i))
termination_by l => l.length
decreasing_by
  simp only [List.length_cons]
  exact Nat.lt_succ_of_le (List.length_filter_le _ _)

theorem keys_setdefaultAppend (acc : ToolAcc) (j : Nat) (f : ToolCallFrag) :
    (setdefaultAppend acc j f).map Prod.fst =
      if (List.any acc fun p => p.1 == j) then acc.map Prod.fst
      else acc.map Prod.fst ++ [j] := by
  unfold setdefaultAppend
  by_cases hany : (List.any acc fun p => p.1 == j) = true
  · rw [if_pos hany, if_pos hany, List.map_map]
    apply List.map_congr_left
    intro p _
    by_cases hpj : p.1 = j <;> simp [hpj]
  · rw [if_neg hany, if_neg hany]
    simp

theorem any_keys_eq (acc : ToolAcc) (j : Nat) :
    ((acc.map Prod.fst).any fun k => k == j) = (List.any acc fun p => p.1 == j) := by
  induction acc with
  | nil => rfl
  | cons p rest ih => simp_all

theorem keys_foldl : ∀ (fs : List ToolCallFrag) (acc : ToolAcc),
    (fs.foldl (fun a frag => setdefaultAppend a frag.index frag) acc).map Prod.fst =
      acc.map Prod.fst ++
        firstKeys ((fs.map (fun f => f.index)).filter
          (fun j => !((acc.map Prod.fst).any (fun k => k == j)))) := by
  intro fs
  induction fs with
  | nil => intro acc; simp [firstKeys]
  | cons f fs ih =>
    intro acc
    rw [List.foldl_cons, ih, keys_setdefaultAppend]
    by_cases hany : (List.any acc fun p => p.1 == f.index) = true
    · rw [if_pos hany]
      congr 1
      simp only [List.map_cons, List.filter_cons]
      rw [any_keys_eq, hany]
      rfl
    · rw [if_neg hany]
      simp only [List.map_cons, List.filter_cons]
      rw [any_keys_eq]
      have hfalse : (List.any acc fun p => p.1 == f.index) = false := by
        simp only [Bool.not_eq_true] at hany
        exact hany
      rw [hfalse]
      have heq : (List.map (fun f => f.index) fs).filter
          (fun j => !((acc.map Prod.fst ++ [f.index]).any fun k => k == j)) =
          ((List.map (fun f => f.index) fs).filter
            (fun j => !((acc.map Prod.fst).any fun k => k == j))).filter
            (fun j => j != f.index) := by
        rw [List.filter_filter]
        apply List.filter_congr
        intro j _
        rw [List.any_append]
        simp only [List.any_cons, List.any_nil, Bool.or_false, Bool.not_or]
        rw [Bool.and_comm]
        congr 1
        by_cases h : j = f.index <;> simp [h, bne, eq_comm]
      simp only [Bool.not_false, if_true, List.append_assoc, List.singleton_append]
      rw [firstKeys, heq]

theorem firstKeys_subset_bounded : ∀ (n : Nat) (l : List Nat), l.length ≤ n →
    ∀ j ∈ firstKeys l, j ∈ l := by
  intro n
  induction n with
  | zero =>
    intro l hl j hj
    match l, hl with
    | [], _ => simp [firstKeys] at hj
  | succ n ih =>
    intro l hl j hj
    match l with
    | [] => simp [firstKeys] at hj
    | i :: is =>
      rw [firstKeys] at hj
      rcases List.mem_cons.mp hj with rfl | hj2
      · exact List.mem_cons_self _ _
      · have hlen : (is.filter (fun j => j != i)).length ≤ n := by
          have h1 := List.length_filter_le (fun j => j != i) is
          simp only [List.length_cons] at hl
          omega
        exact List.mem_cons_of_mem i
          (List.mem_of_mem_filter (ih _ hlen j hj2))

theorem firstKeys_subset (l : List Nat) : ∀ j ∈ firstKeys l, j ∈ l :=
  firstKeys_subset_bounded l.length l (le_refl _)

theorem firstKeys_nodup_bounded : ∀ (n : Nat) (l : List Nat), l.length ≤ n →
    (firstKeys l).Nodup := by
  intro n
  induction n with
  | zero =>
    intro l hl
    match l, hl with
    | [], _ => simp [firstKeys]
  | succ n ih =>
    intro l hl
    match l with
    | [] => simp [firstKeys]
    | i :: is =>
      rw [firstKeys]
      have hlen : (is.filter (fun j => j != i)).length ≤ n := by
        have h1 := List.length_filter_le (fun j => j != i) is
        simp only [List.length_cons] at hl
        omega
      refine List.nodup_cons.mpr ⟨?_, ih _ hlen⟩
      intro hmem
      have h2 := firstKeys_subset _ i hmem
      have h3 := List.of_mem_filter h2
      simp at h3

theorem firstKeys_nodup (l : List Nat) : (firstKeys l).Nodup :=
  firstKeys_nodup_bounded l.length l (le_refl _)

theorem accLookup_of_mem_nodup : ∀ (acc : ToolAcc),
    (acc.map Prod.fst).Nodup → ∀ (i : Nat) (l : List ToolCallFrag),
    (i, l) ∈ acc → accLookup acc i = some l := by
  intro acc
  induction acc with
  | nil => intro _ i l hm; simp at hm
  | cons p rest ih =>
    intro hnd i l hm
    rw [List.map_cons, List.nodup_cons] at hnd
    rcases List.mem_cons.mp hm with rfl | hm2
    · rw [accLookup, if_pos rfl]
    · by_cases hpi : p.1 = i
      · exfalso
        apply hnd.1
        rw [hpi]
        exact List.mem_map.mpr ⟨(i, l), hm2, rfl⟩
      · rw [accLookup, if_neg hpi]
        exact ih hnd.2 i l hm2


/-- Extract the `toolUseInput` payload of a delta event. -/
def toolInputOf : StreamEvent → Option String
  | .contentBlockDeltaToolUseInput s => some s
  | _ => none

/-- Metadata-event test. -/
def isMetadataEv : StreamEvent → Bool
  | .metadata _ _ _ _ => true
  | _ => false

/-- The `toolUseId`s of the tool-use `ContentBlockStart` events, in order. -/
def toolStartIds : List StreamEvent → List (Option String)
  | [] => []
  | .contentBlockStart (some (_, id)) :: rest => id :: toolStartIds rest
  | _ :: rest => toolStartIds rest

theorem filterMap_toolInput_deltas : ∀ (l : List ToolCallFrag),
    List.filterMap toolInputOf (l.map fun frag => format_chunk (.contentDeltaTool frag)) =
      l.map (fun f => f.arguments.getD "") := by
  intro l
  induction l with
  | nil => rfl
  | cons f fs ih =>
    simp only [List.map_cons, List.filterMap_cons]
    rw [show toolInputOf (format_chunk (.contentDeltaTool f)) =
      some (f.arguments.getD "") from rfl]
    rw [ih]

theorem flushOne_inputs (fs : List ToolCallFrag) :
    (flushOne fs).filterMap toolInputOf = fs.map (fun f => f.arguments.getD "") := by
  match fs with
  | [] => rfl
  | f :: fs' =>
    rw [flushOne]
    simp only [List.filterMap_cons, List.filterMap_append]
    rw [show toolInputOf (format_chunk (.contentStartTool f)) = none from rfl]
    rw [show toolInputOf (format_chunk .contentStopTool) = none from rfl]
    simp only [List.filterMap_nil, List.append_nil]
    exact filterMap_toolInput_deltas (f :: fs')

theorem contentFrags_nonempty_choices : ∀ (chunks : List RawChunk),
    contentFrags chunks ≠ [] → ∃ c ∈ chunks, c.choices ≠ [] := by
  intro chunks
  induction chunks with
  | nil => intro h; exact absurd rfl h
  | cons c rest ih =>
    intro h
    cases hc : c.choices with
    | nil =>
      rw [contentFrags, hc] at h
      obtain ⟨d, hd, hne⟩ := ih h
      exact ⟨d, List.mem_cons_of_mem c hd, hne⟩
    | cons choice tl =>
      exact ⟨c, List.mem_cons_self c rest, by rw [hc]; simp⟩

/-- C4: for every accumulated tool call (index `i` with at least one
fragment), the emitted block's `toolUseInput` deltas concatenate to the
concatenation of the raw fragments' arguments (a `None` fragment
contributing `""`), and that block appears in the emitted stream. -/
theorem c4_tool_input_concat (chunks : List RawChunk) (i : Nat)
    (h : ((contentFrags chunks).any fun f => f.index == i) = true) :
    String.join ((flushOne ((contentFrags chunks).filter
        fun f => f.index == i)).filterMap toolInputOf) =
      String.join (((contentFrags chunks).filter fun f => f.index == i).map
        (fun f => f.arguments.getD "")) ∧
    ∃ l r, (stream chunks).1 =
      l ++ flushOne ((contentFrags chunks).filter fun f => f.index == i) ++ r := by
  constructor
  · rw [flushOne_inputs]
  · have hchoices : ∃ c ∈ chunks, c.choices ≠ [] := by
      apply contentFrags_nonempty_choices
      intro he
      rw [he] at h
      simp at h
    obtain ⟨choice, hch, heq⟩ := stream_decomp chunks hchoices
    have hmem := accOf_mem (contentFrags chunks) i h
    obtain ⟨s, t, hst⟩ := List.append_of_mem hmem
    rw [heq]
    simp only []
    rw [hst, flushToolCalls]
    simp only [List.map_append, List.map_cons, List.flatten_append, List.flatten_cons]
    refine ⟨[format_chunk .messageStart, format_chunk .contentStartText] ++
      (contentPhase chunks [] none none).events ++ [format_chunk .contentStopText] ++
      (s.map (fun p => flushOne p.2)).flatten,
      (t.map (fun p => flushOne p.2)).flatten ++
        [format_chunk (.messageStop choice.finish_reason)] ++
        (match chunks.getLast?.bind RawChunk.usage with
         | some u => [format_chunk (.metadata u)]
         | none => []), ?_⟩
    simp only [List.append_assoc]

def c4frag1 : ToolCallFrag :=
  { index := 0, id := some "t0", name := some "a", arguments := some "\x7b\"x\":" }

def c4frag2 : ToolCallFrag := { index := 0 }

def c4frag3 : ToolCallFrag := { index := 0, arguments := some "1\x7d" }

/-- The raw chunks of the C4 witness: three fragments for index 0, the
middle one with `arguments = None`. -/
def c4Chunks : List RawChunk :=
  [ { choices := [{ delta := { tool_calls := some [c4frag1] } }] },
    { choices := [{ delta := { tool_calls := some [c4frag2, c4frag3] } }] },
    { choices := [{ delta := {}, finish_reason := some "tool_calls" }] } ]

theorem c4_tool_input_concat_witness :
    String.join ((flushOne ((contentFrags c4Chunks).filter
        fun f => f.index == 0)).filterMap toolInputOf) =
      String.join (((contentFrags c4Chunks).filter fun f => f.index == 0).map
        (fun f => f.arguments.getD "")) :=
  (c4_tool_input_concat c4Chunks 0 (by decide)).1


def c2frag1 : ToolCallFrag :=
  { index := 1, id := some "t1", name := some "b", arguments := some "\x7b\x7d" }

def c2frag0a : ToolCallFrag :=
  { index := 0, id := some "t0", name := some "a", arguments := some "\x7b\"x\":" }

def c2frag0b : ToolCallFrag := { index := 0, arguments := some "1\x7d" }

/-- Raw chunks whose index-1 tool call's first fragment arrives before the
index-0 call's first fragment. -/
def c2Chunks : List RawChunk :=
  [ { choices := [{ delta := { tool_calls := some [c2frag1] } }] },
    { choices := [{ delta := { tool_calls := some [c2frag0a, c2frag0b] } }] },
    { choices := [{ delta := {}, finish_reason := some "tool_calls" }] } ]

/-- C2 counterexample: with the index-1 call's first fragment arriving
before the index-0 call's, the code flushes the index-1 block (id `t1`)
FIRST — dict insertion order — whereas ascending index order would flush
the index-0 block (id `t0`) first.  The claim's predicted start order
`[t0, t1]` is refuted. -/
theorem c2_counterexample :
    toolStartIds (stream c2Chunks).1 = [some "t1", some "t0"] ∧
    toolStartIds (stream c2Chunks).1 ≠ [some "t0", some "t1"] ∧
    (contentFrags c2Chunks).map (fun f => f.index) = [1, 0, 0] := by
  refine ⟨by decide, by decide, by decide⟩

/-- C2 amended: accumulated tool calls are flushed in the order in which
their indices FIRST appeared in the raw stream (Python dict insertion
order), not in ascending index order; within each block the
`ContentBlockStart` comes from the first fragment and one `toolUseInput`
delta is emitted per fragment in arrival order, followed by
`ContentBlockStop` (this is `flushOne`/`flushToolCalls`). -/
theorem c2_flush_insertion_order (chunks : List RawChunk) :
    ((accOf (contentFrags chunks)).map Prod.fst =
      firstKeys ((contentFrags chunks).map (fun f => f.index))) ∧
    (∀ i frags, (i, frags) ∈ accOf (contentFrags chunks) →
      frags = (contentFrags chunks).filter (fun f => f.index == i)) ∧
    ∃ deltas tail,
      (stream chunks).1 = [.messageStart "assistant", .contentBlockStart none] ++
        deltas ++ [.contentBlockStop] ++
        flushToolCalls (accOf (contentFrags chunks)) ++ tail := by
  have hkeys : (accOf (contentFrags chunks)).map Prod.fst =
      firstKeys ((contentFrags chunks).map (fun f => f.index)) := by
    rw [accOf, keys_foldl]
    simp only [List.map_nil, List.nil_append, List.any_nil, Bool.not_false]
    congr 1
    induction (contentFrags chunks).map (fun f => f.index) with
    | nil => rfl
    | cons j js ih => simp [List.filter_cons, ih]
  refine ⟨hkeys, ?_, ?_⟩
  · intro i frags hmem
    have hnd : ((accOf (contentFrags chunks)).map Prod.fst).Nodup := by
      rw [hkeys]
      exact firstKeys_nodup _
    have hl := accLookup_of_mem_nodup _ hnd i frags hmem
    rw [accLookup_accOf] at hl
    by_cases hany : ((contentFrags chunks).any fun f => f.index == i) = true
    · rw [if_pos hany] at hl
      cases hl
      rfl
    · rw [if_neg hany] at hl
      cases hl
  · rw [stream]
    simp only []
    rw [contentPhase_acc chunks [] none none]
    rw [show (contentFrags chunks).foldl
      (fun a frag => setdefaultAppend a frag.index frag) [] = accOf (contentFrags chunks)
      from rfl]
    cases hch : (contentPhase chunks [] none none).choiceVar with
    | none =>
      exact ⟨(contentPhase chunks [] none none).events, [], by
        simp only [List.append_assoc, List.cons_append, List.nil_append, List.append_nil]
        rfl⟩
    | some choice =>
      cases hev : (match (contentPhase chunks [] none none).remaining.getLast? with
          | some c => some c
          | none => (contentPhase chunks [] none none).eventVar) with
      | none =>
        refine ⟨(contentPhase chunks [] none none).events,
          [format_chunk (.messageStop choice.finish_reason)], ?_⟩
        simp only [List.append_assoc, List.cons_append, List.nil_append]
        rfl
      | some ev =>
        cases hu : ev.usage with
        | none =>
          refine ⟨(contentPhase chunks [] none none).events,
            [format_chunk (.messageStop choice.finish_reason)], ?_⟩
          simp only [List.append_assoc, List.cons_append, List.nil_append]
          rw [hu]
          rfl
        | some u =>
          refine ⟨(contentPhase chunks [] none none).events,
            [format_chunk (.messageStop choice.finish_reason),
             format_chunk (.metadata u)], ?_⟩
          simp only [List.append_assoc, List.cons_append, List.nil_append]
          rw [hu]
          rfl


/-- Raw chunks where a usage object arrives in the trailer but is followed
by a further trailer chunk without usage. -/
def c6Chunks : List RawChunk :=
  [ { choices := [{ delta := { content := some "x" }, finish_reason := some "stop" }] },
    { choices := [], usage := some ⟨1, 2, 3⟩ },
    { choices := [] } ]

/-- C6 counterexample: a usage object IS observed in the trailer (chunk 1,
after the finish-reason chunk), yet NO `Metadata` event is emitted, because
the code checks `event.usage` only on the LAST drained chunk.  The claim's
"Metadata iff a usage object was observed in the trailer" is refuted. -/
theorem c6_counterexample :
    ((stream c6Chunks).1.countP (fun e => isMetadataEv e)) = 0 ∧
    (stream c6Chunks).2 = none ∧
    ((c6Chunks.drop 1).any fun c => c.usage.isSome) = true := by
  refine ⟨by decide, rfl, by decide⟩

/-- C6 amended: after the content phase the orchestrator drains every
remaining chunk without emitting content events, and emits exactly one
`Metadata` event iff the LAST chunk of the raw stream carries a usage
object (usage on earlier trailer chunks is ignored); nothing but that
optional `Metadata` follows `MessageStop`. -/
theorem c6_metadata_iff_last_usage (chunks : List RawChunk)
    (h : ∃ c ∈ chunks, c.choices ≠ []) :
    (stream chunks).2 = none ∧
    ∃ evs reason,
      (stream chunks).1 = evs ++ [.messageStop reason] ++
        (match chunks.getLast?.bind RawChunk.usage with
         | some u => [.metadata u.prompt_tokens u.completion_tokens u.total_tokens 0]
         | none => []) ∧
      (∀ e ∈ evs, isMetadataEv e = false) := by
  obtain ⟨choice, hch, heq⟩ := stream_decomp chunks h
  obtain ⟨reason, hreason⟩ := format_chunk_messageStop_shape choice.finish_reason
  constructor
  · rw [heq]
  refine ⟨[format_chunk .messageStart, format_chunk .contentStartText] ++
      (contentPhase chunks [] none none).events ++ [format_chunk .contentStopText] ++
      flushToolCalls (accOf (contentFrags chunks)), reason, ?_, ?_⟩
  · rw [heq]
    simp only [List.append_assoc, List.cons_append, List.nil_append, hreason]
    cases chunks.getLast?.bind RawChunk.usage with
    | some u => rfl
    | none => rfl
  · intro e he
    simp only [List.append_assoc, List.cons_append, List.nil_append,
      List.mem_cons, List.mem_append] at he
    rcases he with rfl | rfl | he | rfl | he
    · rfl
    · rfl
    · rcases contentPhase_events_delta chunks [] none none e he with ⟨s, rfl⟩ | ⟨s, rfl⟩ <;> rfl
    · rfl
    · rcases flushToolCalls_shape _ e he with ⟨tu, rfl⟩ | ⟨s, rfl⟩ | rfl <;> rfl

/-- C6 amended witness: Scenario B's stream completes, its last chunk
carries the usage object, and the final emitted event is the `Metadata`
event. -/
theorem c6_metadata_iff_last_usage_witness :
    (stream scenarioB).2 = none ∧
    (stream scenarioB).1.getLast? = some (.metadata 10 5 15 0) ∧
    (stream c6Chunks).1.getLast? = some (.messageStop "end_turn") :=
  ⟨(c6_metadata_iff_last_usage scenarioB
      ⟨{ choices := [{ delta := { content := some "Hello" } }] },
        by simp [scenarioB], by simp⟩).1,
   rfl, rfl⟩

end StrandsPortkey
